import Mathlib

/-!
Verification development for the fontscraper batch STL generator
(`src/fontscraper/main.py`).  Strings are modelled as `List Char`
(Unicode scalar values, as in Python `str`); fallible operations return
`Option`; the polling download watcher is modelled as a function of the
sequence of directory snapshots it observes.
-/

/-! ## Python character classes

`re.sub(r"[^\w\-\.]+", "_", name)` uses Python's Unicode-aware `\w`
(`c.isalnum() or c == '_'`), and `str.strip()` strips Unicode whitespace.
Both are embedded exactly for code points below U+0100 (ASCII and the
Latin-1 Supplement, from the Unicode character database); behaviour on
higher code points is a parameter (`PyUni`), so every universally
quantified theorem below holds for Python's actual tables.
-/

/-- Exact table of Python `\w` (word characters: `isalnum` or underscore)
for code points below 0x100: ASCII digits, letters, underscore, and the
Latin-1 letters and numeric signs (ª ² ³ µ ¹ º ¼ ½ ¾, À–Ö, Ø–ö, ø–ÿ). -/
def latin1Word (n : Nat) : Bool :=
  (48 ≤ n && n ≤ 57) || (65 ≤ n && n ≤ 90) || n == 95 || (97 ≤ n && n ≤ 122) ||
  n == 0xAA || n == 0xB2 || n == 0xB3 || n == 0xB5 || n == 0xB9 || n == 0xBA ||
  n == 0xBC || n == 0xBD || n == 0xBE ||
  (0xC0 ≤ n && n ≤ 0xD6) || (0xD8 ≤ n && n ≤ 0xF6) || (0xF8 ≤ n && n ≤ 0xFF)

/-- Exact table of Python `str` whitespace (`Py_UNICODE_ISSPACE`) for code
points below 0x100: tab, LF, VT, FF, CR, FS, GS, RS, US, space, NEL, NBSP. -/
def latin1Space (n : Nat) : Bool :=
  (9 ≤ n && n ≤ 13) || (28 ≤ n && n ≤ 31) || n == 32 || n == 0x85 || n == 0xA0

/-- Python's Unicode tables above U+00FF, abstracted: `hiWord n` is whether
code point `n` is a `\w` character, `hiSpace n` whether it is whitespace.
The single fact carried along is that no word character is whitespace. -/
structure PyUni where
  hiWord : Nat → Bool
  hiSpace : Nat → Bool
  disj : ∀ n, hiWord n = true → hiSpace n = false

/-- The trivial instantiation (every code point above U+00FF treated as
neither word nor space); used to evaluate on concrete Latin-1 inputs,
where the high tables are irrelevant. -/
def pyUni0 : PyUni where
  hiWord := fun _ => false
  hiSpace := fun _ => false
  disj := fun _ h => by simp at h

/-- Python `\w` membership of a character. -/
def pyWord (U : PyUni) (c : Char) : Bool :=
  if c.toNat < 0x100 then latin1Word c.toNat else U.hiWord c.toNat

/-- Python `str` whitespace membership of a character. -/
def pySpace (U : PyUni) (c : Char) : Bool :=
  if c.toNat < 0x100 then latin1Space c.toNat else U.hiSpace c.toNat

theorem pyWord_not_space (U : PyUni) (c : Char) (h : pyWord U c = true) :
    pySpace U c = false := by
  unfold pyWord at h
  unfold pySpace
  by_cases hc : c.toNat < 0x100
  · rw [if_pos hc] at h
    rw [if_pos hc]
    simp only [latin1Word, Bool.or_eq_true, Bool.and_eq_true, decide_eq_true_eq,
      beq_iff_eq] at h
    rw [Bool.eq_false_iff]
    intro hs
    simp only [latin1Space, Bool.or_eq_true, Bool.and_eq_true, decide_eq_true_eq,
      beq_iff_eq] at hs
    omega
  · rw [if_neg hc] at h
    rw [if_neg hc]
    exact U.disj _ h

/-! ## List-of-characters utilities shared by the embedded functions -/

/-- Drop elements satisfying `p` from the end of a list
(the right half of Python's `str.strip`). -/
def dropEndWhile (p : Char → Bool) (l : List Char) : List Char :=
  (l.reverse.dropWhile p).reverse

/-- Python `str.strip` with character predicate `p` (both ends). -/
def pyStrip (p : Char → Bool) (l : List Char) : List Char :=
  dropEndWhile p (l.dropWhile p)

/-- `re.sub` of the pattern "one or more characters satisfying `bad`"
by the single replacement character `r`: each maximal run of `bad`
characters becomes one `r`.  The flag tracks whether the previous
character was part of a run already replaced. -/
def squashRuns (bad : Char → Bool) (r : Char) : Bool → List Char → List Char
  | _, [] => []
  | inRun, c :: cs =>
    if bad c then
      if inRun then squashRuns bad r true cs
      else r :: squashRuns bad r true cs
    else c :: squashRuns bad r false cs

/-- Characters kept verbatim by `sanitize_stem`: `\w`, hyphen, dot
(the complement of the class in `re.sub(r"[^\w\-\.]+", "_", name)`). -/
def allowedChar (U : PyUni) (c : Char) : Bool :=
  pyWord U c || c == '-' || c == '.'

/-- Embedding of `sanitize_stem` (src/fontscraper/main.py lines 38–43):
strip whitespace, replace runs of disallowed characters by `'_'`,
collapse runs of `'_'`, strip edge underscores, substitute `"item"` if
empty, truncate to `maxLen`. -/
def sanitize_stem (U : PyUni) (name : List Char) (maxLen : Nat) : List Char :=
  let s1 := pyStrip (pySpace U) name
  let s2 := squashRuns (fun c => ! allowedChar U c) '_' false s1
  let s3 := squashRuns (fun c => c == '_') '_' false s2
  let s4 := pyStrip (fun c => c == '_') s3
  let s5 := if s4.isEmpty then "item".data else s4
  s5.take maxLen

example : sanitize_stem pyUni0 "Hello, World! / 2024".data 80
    = "Hello_World_2024".data := by decide

example : sanitize_stem pyUni0 "é".data 80 = "é".data := by decide

example : sanitize_stem pyUni0 "  __  ".data 80 = "item".data := by decide

/-! ## Path name utilities (pathlib semantics) -/

/-- The final component of a path string (`pathlib.PurePath.name`):
everything after the last `'/'`. -/
def pathName (p : List Char) : List Char :=
  (p.reverse.takeWhile (fun c => c ≠ '/')).reverse

/-- `pathlib.PurePath.suffix` of a file name: `name[i:]` where `i` is the
index of the last dot, provided `0 < i < len(name) - 1`; empty otherwise. -/
def pySuffix (name : List Char) : List Char :=
  let tail := name.reverse.takeWhile (fun c => c ≠ '.')
  if tail.length = name.length then []
  else if tail.length = 0 then []
  else if tail.length + 1 = name.length then []
  else '.' :: tail.reverse

/-- `pathlib.PurePath.stem` of a file name: the name with `pySuffix`
removed. -/
def pyStem (name : List Char) : List Char :=
  name.take (name.length - (pySuffix name).length)

/-- Python `str.lower` on one character, exact for code points below
0x100 (ASCII `A`–`Z` and Latin-1 `À`–`Þ` except `×` map down by 32) and
the identity above.  The identity is extensionally sound for every
comparison in this file: those compare a lowered string against
`".part"`, `".tmp"`, `".crdownload"` or `".ttf"`, and no code point
above U+00FF has any of those ASCII letters as its one-character
lowercase form. -/
def pyLowerChar (c : Char) : Char :=
  let n := c.toNat
  if 65 ≤ n && n ≤ 90 then Char.ofNat (n + 32)
  else if (0xC0 ≤ n && n ≤ 0xD6) || (0xD8 ≤ n && n ≤ 0xDE) then Char.ofNat (n + 32)
  else c

example : pySuffix "a.tmp".data = ".tmp".data := by decide
example : pySuffix ".part".data = [] := by decide
example : pySuffix "a.".data = [] := by decide
example : pyStem "MyFont.ttf".data = "MyFont".data := by decide
example : pyStem "archive.tar.gz".data = "archive.tar".data := by decide

/-- Embedding of `is_partial` (src/fontscraper/main.py lines 150–151):
the name ends in `.part`, or its lowered pathlib suffix is `.part`,
`.tmp` or `.crdownload`. -/
def isPartialDownload (name : List Char) : Bool :=
  ".part".data.isSuffixOf name ||
  (let sl := (pySuffix name).map pyLowerChar
   sl == ".part".data || sl == ".tmp".data || sl == ".crdownload".data)

example : isPartialDownload "model.stl.part".data = true := by decide
example : isPartialDownload "model.CRDOWNLOAD".data = true := by decide
example : isPartialDownload "model.stl".data = false := by decide

/-! ## load_phrases -/

/-- Embedding of `load_phrases` (src/fontscraper/main.py lines 46–58).
The filesystem read is abstracted: `none` is a missing file, `some lines`
the file's content as the list of its lines (`str.splitlines`).  Each
line is stripped; empty results and results starting with `#` are
skipped; the rest are kept in order. -/
def load_phrases (U : PyUni) : Option (List (List Char)) → List (List Char)
  | none => []
  | some lines =>
    lines.filterMap fun line =>
      let s := pyStrip (pySpace U) line
      if s.isEmpty then none
      else if s.head? == some '#' then none
      else some s

example :
    load_phrases pyUni0 (some ["  # note".data, "hello".data, "".data, "  a b  ".data])
      = ["hello".data, "a b".data] := by decide

/-! ## iter_ttf_fonts -/

/-- The components of a path string: the path split at every `'/'`
(Python `str.split('/')`, empty components kept). -/
def pathParts : List Char → List (List Char)
  | [] => [[]]
  | c :: cs =>
    if c = '/' then [] :: pathParts cs
    else
      match pathParts cs with
      | [] => [[c]]
      | h :: t => (c :: h) :: t

/-- Joining with `'/'`, the inverse of `pathParts`. -/
def joinParts : List (List Char) → List Char
  | [] => []
  | [x] => x
  | x :: xs => x ++ '/' :: joinParts xs

theorem pathParts_ne_nil : ∀ p, pathParts p ≠ [] := by
  intro p
  cases p with
  | nil => simp [pathParts]
  | cons c cs =>
    simp only [pathParts]
    by_cases h : c = '/'
    · rw [if_pos h]
      simp
    · rw [if_neg h]
      rcases he : pathParts cs with _ | ⟨h1, t1⟩ <;> simp

theorem joinParts_pathParts : ∀ p, joinParts (pathParts p) = p := by
  intro p
  induction p with
  | nil => rfl
  | cons c cs ih =>
    simp only [pathParts]
    by_cases h : c = '/'
    · rw [if_pos h]
      rcases he : pathParts cs with _ | ⟨h1, t1⟩
      · exact absurd he (pathParts_ne_nil cs)
      · rw [he] at ih
        show ([] : List Char) ++ '/' :: joinParts (h1 :: t1) = c :: cs
        rw [List.nil_append, ih, h]
    · rw [if_neg h]
      rcases he : pathParts cs with _ | ⟨h1, t1⟩
      · exact absurd he (pathParts_ne_nil cs)
      · rw [he] at ih
        cases t1 with
        | nil =>
          show c :: h1 = c :: cs
          rw [show h1 = cs from ih]
        | cons t2 ts =>
          show (c :: h1) ++ '/' :: joinParts (t2 :: ts) = c :: cs
          rw [List.cons_append]
          have hj : h1 ++ '/' :: joinParts (t2 :: ts) = cs := ih
          rw [hj]

theorem pathParts_injective {p q : List Char} (h : pathParts p = pathParts q) :
    p = q := by
  rw [← joinParts_pathParts p, ← joinParts_pathParts q, h]

/-- Path comparison used by `sorted(font_dir.rglob("*"))`: `pathlib`
paths compare by the tuple of their components (`PurePath` comparison
splits the path string at the separator), each component by code point —
so `fonts/a/b.ttf` sorts before `fonts/a.c/d.ttf`, although plain string
order would reverse them.  `List.insertionSort` by this relation models
Python `sorted` (a stable sort by a total preorder, which is exactly
what `sorted` guarantees). -/
def pathle (p q : List Char) : Prop := pathParts p ≤ pathParts q

instance : DecidableRel pathle :=
  fun p q => inferInstanceAs (Decidable (pathParts p ≤ pathParts q))

/-- Sorting step of `iter_ttf_fonts`. -/
def sortPaths (listing : List (List Char)) : List (List Char) :=
  List.insertionSort pathle listing

/-- Whether a path is yielded by `iter_ttf_fonts`: the lowered pathlib
suffix of its final component equals `.ttf`. -/
def isTtf (p : List Char) : Bool :=
  ((pySuffix (pathName p)).map pyLowerChar) == ".ttf".data

/-- Embedding of `iter_ttf_fonts` (src/fontscraper/main.py lines 61–69).
The filesystem is abstracted as the list `listing` of paths below the
font directory (in arbitrary traversal order, as produced by
`rglob("*")`) together with the regular-file predicate `isFile`.
Yields, in sorted order, the regular files whose lowered suffix is
`.ttf`. -/
def iter_ttf_fonts (isFile : List Char → Bool) (listing : List (List Char)) :
    List (List Char) :=
  (sortPaths listing).filter (fun p => isFile p && isTtf p)

/-- The paths for which `iter_ttf_fonts` prints a skip warning: regular
files that are not `.ttf` files (directories are skipped silently). -/
def iter_ttf_warnings (isFile : List Char → Bool) (listing : List (List Char)) :
    List (List Char) :=
  (sortPaths listing).filter (fun p => isFile p && ! isTtf p)

example :
    iter_ttf_fonts (fun p => p ≠ "d".data)
      ["d".data, "b/x.TTF".data, "a.ttf".data, "c.txt".data]
      = ["a.ttf".data, "b/x.TTF".data] := by decide

/-! ## safe_move -/

/-- The `i`-th collision candidate for destination `dst`:
`f"{stem}_{i:02d}{suffix}"` (src/fontscraper/main.py line 191). -/
def candName (dst : List Char) (i : Nat) : List Char :=
  pyStem dst ++ '_' :: (if i < 10 then '0' :: Nat.toDigits 10 i else Nat.toDigits 10 i)
    ++ pySuffix dst

example : candName "a.stl".data 1 = "a_01.stl".data := by decide
example : candName "a.stl".data 123 = "a_123.stl".data := by decide

/-- The candidate search loop of `safe_move`: try `candName dst i`,
`candName dst (i+1)`, … while fuel lasts, returning the first name not
present in `existing`. -/
def findFree (existing : List (List Char)) (dst : List Char) : Nat → Nat → Option (List Char)
  | _, 0 => none
  | i, fuel + 1 =>
    if ! existing.contains (candName dst i) then some (candName dst i)
    else findFree existing dst (i + 1) fuel

/-- Embedding of `safe_move` (src/fontscraper/main.py lines 183–196).
The filesystem is abstracted as the list `existing` of names already
present in the destination directory (the parent directory itself is
created on demand and not modelled).  Returns the name the source file
is moved to, or `none` for the `RuntimeError` after the bounded search
`range(1, 10000)` is exhausted. -/
def safe_move (existing : List (List Char)) (dst : List Char) : Option (List Char) :=
  if ! existing.contains dst then some dst
  else findFree existing dst 1 9999

example : safe_move ["a.stl".data] "a.stl".data = some "a_01.stl".data := by decide
example : safe_move ["a.stl".data, "a_01.stl".data] "a.stl".data
    = some "a_02.stl".data := by decide
example : safe_move ["b.stl".data] "a.stl".data = some "a.stl".data := by decide

/-! ## Download watcher -/

/-- A regular file as observed in one directory listing: its name, size
in bytes (`stat().st_size`) and modification time (`stat().st_mtime`). -/
structure FileInfo where
  name : List Char
  size : Nat
  mtime : ℚ
deriving DecidableEq

/-- One iteration of the watcher's poll loop, as observed from outside:
the clock value at the `while time.time() < deadline` test, the regular
files present in the download directory at the `list_files` call (in the
set-iteration order Python happens to produce), and the clock value read
inside the body (`now`). -/
structure Poll where
  tGuard : ℚ
  files : List FileInfo
  tNow : ℚ
deriving DecidableEq

/-- The watcher's per-poll candidate pool: files of the listing that are
not in the `before` snapshot and are not flagged partial
(`[p for p in (after - before) if p.is_file() and not is_partial(p)]`). -/
def newDownloads (before : List (List Char)) (p : Poll) : List FileInfo :=
  p.files.filter fun f => ! before.contains f.name && ! isPartialDownload f.name

/-- `max(new, key=lambda p: p.stat().st_mtime)`: the first file of
maximal modification time (`max` keeps the earlier element on ties). -/
def pickLatest : List FileInfo → Option FileInfo
  | [] => none
  | f :: fs => some (fs.foldl (fun best g => if best.mtime < g.mtime then g else best) f)

/-- Result of one watcher call: the accepted file, the `TimeoutError`,
or `pending` when the supplied observation trace ended while the loop
would still be running (an incomplete trace, ruled out in theorems by
requiring the trace to reach the deadline). -/
inductive WatchResult where
  | found (f : FileInfo)
  | timedOut
  | pending
deriving DecidableEq

/-- The poll loop of `wait_for_new_download` (src/fontscraper/main.py
lines 160–180), processing the observation trace in order while
threading the `last_size` and `stable_since` state. -/
def watchLoop (before : List (List Char)) (deadline : ℚ) :
    Option Nat → Option ℚ → List Poll → WatchResult
  | _, _, [] => .pending
  | lastSize, stableSince, p :: rest =>
    if p.tGuard < deadline then
      match pickLatest (newDownloads before p) with
      | none => watchLoop before deadline lastSize stableSince rest
      | some cand =>
        if lastSize ≠ some cand.size then
          watchLoop before deadline (some cand.size) (some p.tNow) rest
        else
          match stableSince with
          | some t =>
            if p.tNow - t ≥ 1 then .found cand
            else watchLoop before deadline lastSize stableSince rest
          | none => watchLoop before deadline lastSize stableSince rest
    else .timedOut

/-- Embedding of `wait_for_new_download` (src/fontscraper/main.py lines
154–180).  `deadline` is the value `time.time() + timeout_s` computed on
entry; `polls` is the sequence of directory observations the loop makes. -/
def wait_for_new_download (before : List (List Char)) (deadline : ℚ)
    (polls : List Poll) : WatchResult :=
  watchLoop before deadline none none polls

/-! ## Batch orchestrator -/

/-- Outcomes of the external-collaborator steps, per iteration index:
`driverOk` is whether `make_driver` succeeds at all, `setupOk i` whether
the per-font page load / UI wait / font upload for the `i`-th font
succeeds, and `pipelineOk i j` whether the per-phrase steps for font `i`
and phrase `j` (set the phrase, trigger the download, watcher success)
all succeed. -/
structure Env where
  driverOk : Bool
  setupOk : Nat → Bool
  pipelineOk : Nat → Nat → Bool

/-- Per-(font, phrase) outcome: the relocated artifact's name, or a
caught-and-logged failure. -/
inductive PairRes where
  | ok (artifact : List Char)
  | err
deriving DecidableEq

/-- Output name for a pair (src/fontscraper/main.py line 234):
`f"{sanitize_stem(font_path.stem)}__{sanitize_stem(phrase)}.stl"`. -/
def outName (U : PyUni) (fontName phrase : List Char) : List Char :=
  sanitize_stem U (pyStem fontName) 80 ++ "__".data ++ sanitize_stem U phrase 80
    ++ ".stl".data

/-- The inner (per-phrase) loop body: on pipeline success relocate the
download to `outName`; a `safe_move` failure is caught by the same
per-phrase handler.  Returns the outcome and the updated contents of the
output directory. -/
def runPhrase (U : PyUni) (existing : List (List Char)) (fontName phrase : List Char)
    (okStep : Bool) : PairRes × List (List Char) :=
  if okStep then
    match safe_move existing (outName U fontName phrase) with
    | some p => (.ok p, p :: existing)
    | none => (.err, existing)
  else (.err, existing)

/-- The inner loop over phrases for font index `i` (phrase indices start
at `j`), threading the output directory contents. -/
def runPhrases (U : PyUni) (env : Env) (i : Nat) (fontName : List Char) :
    List (List Char) → Nat → List (List Char) →
    List (Nat × Nat × PairRes) × List (List Char)
  | [], _, existing => ([], existing)
  | ph :: rest, j, existing =>
    let step := runPhrase U existing fontName ph (env.pipelineOk i j)
    let next := runPhrases U env i fontName rest (j + 1) step.2
    ((i, j, step.1) :: next.1, next.2)

/-- The outer loop over fonts (font indices start at `i`): a setup
failure logs the font and skips its phrases; otherwise all phrases run.
Returns (fonts whose setup failed, per-pair outcomes, final output
directory contents). -/
def runFonts (U : PyUni) (env : Env) (phrases : List (List Char)) :
    List (List Char) → Nat → List (List Char) →
    List Nat × List (Nat × Nat × PairRes) × List (List Char)
  | [], _, existing => ([], [], existing)
  | f :: rest, i, existing =>
    if env.setupOk i then
      let inner := runPhrases U env i f phrases 0 existing
      let next := runFonts U env phrases rest (i + 1) inner.2
      (next.1, inner.1 ++ next.2.1, next.2.2)
    else
      let next := runFonts U env phrases rest (i + 1) existing
      (i :: next.1, next.2.1, next.2.2)

/-- The observable outcome of one `main` run: whether it aborted on the
phrase check, whether it crashed because the browser could not start,
the fonts whose setup failed, the per-pair outcomes in processing order,
and the final output-directory contents. -/
structure RunOut where
  aborted : Bool
  crashed : Bool
  fontErrors : List Nat
  pairs : List (Nat × Nat × PairRes)
  existing : List (List Char)
deriving DecidableEq

/-- Embedding of `main` (src/fontscraper/main.py lines 203–246).
`phrasesFile` abstracts the phrase file (`none` = missing), `fonts` is
the list of font file names produced by `iter_ttf_fonts`, `outInit` the
initial contents of the output directory.  `main` aborts (early
`return`) exactly when `load_phrases` yields nothing; it then creates
the browser (a failure there propagates out of `main`), and otherwise
runs the two nested loops to completion. -/
def runMain (U : PyUni) (phrasesFile : Option (List (List Char)))
    (fonts : List (List Char)) (env : Env) (outInit : List (List Char)) : RunOut :=
  let phrases := load_phrases U phrasesFile
  if phrases.isEmpty then
    { aborted := true, crashed := false, fontErrors := [], pairs := [], existing := outInit }
  else if ! env.driverOk then
    { aborted := false, crashed := true, fontErrors := [], pairs := [], existing := outInit }
  else
    let r := runFonts U env phrases fonts 0 outInit
    { aborted := false, crashed := false, fontErrors := r.1, pairs := r.2.1,
      existing := r.2.2 }

/-! ## Lemmas about squashRuns and pyStrip -/

theorem mem_squashRuns {bad : Char → Bool} {r c : Char} :
    ∀ {l : List Char} {fl : Bool}, c ∈ squashRuns bad r fl l →
      c = r ∨ (c ∈ l ∧ bad c = false) := by
  intro l
  induction l with
  | nil => intro fl h; simp [squashRuns] at h
  | cons d ds ih =>
    intro fl h
    by_cases hb : bad d
    · cases fl with
      | true =>
        simp only [squashRuns, if_pos hb, if_true] at h
        rcases ih h with h1 | ⟨h2, h3⟩
        · exact Or.inl h1
        · exact Or.inr ⟨List.mem_cons_of_mem _ h2, h3⟩
      | false =>
        simp only [squashRuns, if_pos hb, if_false] at h
        rcases List.mem_cons.mp h with h1 | h1
        · exact Or.inl h1
        · rcases ih h1 with h2 | ⟨h2, h3⟩
          · exact Or.inl h2
          · exact Or.inr ⟨List.mem_cons_of_mem _ h2, h3⟩
    · simp only [squashRuns, if_neg hb] at h
      rcases List.mem_cons.mp h with h1 | h1
      · subst h1
        exact Or.inr ⟨List.mem_cons_self _ _, by simpa using hb⟩
      · rcases ih h1 with h2 | ⟨h2, h3⟩
        · exact Or.inl h2
        · exact Or.inr ⟨List.mem_cons_of_mem _ h2, h3⟩

theorem squashRuns_eq_self {bad : Char → Bool} {r : Char} :
    ∀ {l : List Char}, (∀ c ∈ l, bad c = false) → ∀ fl, squashRuns bad r fl l = l := by
  intro l
  induction l with
  | nil => intro _ fl; simp [squashRuns]
  | cons d ds ih =>
    intro h fl
    have hd : bad d = false := h d (List.mem_cons_self _ _)
    simp only [squashRuns, hd, Bool.false_eq_true, if_false]
    rw [ih (fun c hc => h c (List.mem_cons_of_mem _ hc)) false]

theorem head_squashRuns_true {bad : Char → Bool} {r : Char} :
    ∀ {l : List Char} {h : Char} {t : List Char},
      squashRuns bad r true l = h :: t → bad h = false := by
  intro l
  induction l with
  | nil => intro h t he; simp [squashRuns] at he
  | cons d ds ih =>
    intro h t he
    by_cases hb : bad d
    · simp only [squashRuns, if_pos hb, if_true] at he
      exact ih he
    · simp only [squashRuns, if_neg hb] at he
      injection he with he1 _
      rw [← he1]
      simpa using hb

theorem squashRuns_true_eq_false {bad : Char → Bool} {r : Char} {l : List Char}
    (h : ∀ c, l.head? = some c → bad c = false) :
    squashRuns bad r true l = squashRuns bad r false l := by
  cases l with
  | nil => rfl
  | cons d ds =>
    have hd : bad d = false := h d rfl
    simp only [squashRuns, hd, Bool.false_eq_true, if_false]

theorem chain'_squashRuns {bad : Char → Bool} {r : Char} :
    ∀ {l : List Char} {fl : Bool},
      List.Chain' (fun a b => bad a = false ∨ bad b = false) (squashRuns bad r fl l) := by
  intro l
  induction l with
  | nil => intro fl; simp [squashRuns]
  | cons d ds ih =>
    intro fl
    by_cases hb : bad d
    · cases fl with
      | true => simpa only [squashRuns, if_pos hb, if_true] using ih
      | false =>
        simp only [squashRuns, if_pos hb, if_false]
        refine List.chain'_cons'.mpr ⟨?_, ih⟩
        intro y hy
        rcases he : squashRuns bad r true ds with _ | ⟨h1, t1⟩
        · rw [he] at hy; simp at hy
        · rw [he] at hy
          simp only [List.head?_cons, Option.mem_def, Option.some.injEq] at hy
          exact Or.inr (hy ▸ head_squashRuns_true he)
    · simp only [squashRuns, if_neg hb]
      refine List.chain'_cons'.mpr ⟨?_, ih⟩
      intro y _
      exact Or.inl (by simpa using hb)

theorem chain'_of_forall_good {bad : Char → Bool} {l : List Char}
    (h : ∀ c ∈ l, bad c = false) :
    List.Chain' (fun a b => bad a = false ∨ bad b = false) l := by
  induction l with
  | nil => simp
  | cons d ds ih =>
    refine List.chain'_cons'.mpr ⟨fun y _ => Or.inl (h d (List.mem_cons_self _ _)), ?_⟩
    exact ih fun c hc => h c (List.mem_cons_of_mem _ hc)

theorem squashRuns_eq_self_of_chain' {bad : Char → Bool} {r : Char}
    (hr : ∀ c, bad c = true → c = r) :
    ∀ {l : List Char},
      List.Chain' (fun a b => bad a = false ∨ bad b = false) l →
      squashRuns bad r false l = l := by
  intro l
  induction l with
  | nil => intro _; rfl
  | cons d ds ih =>
    intro hc
    rcases List.chain'_cons'.mp hc with ⟨hpair, htail⟩
    by_cases hb : bad d
    · have hd : d = r := hr d hb
      have hds : ∀ c, ds.head? = some c → bad c = false := by
        intro c h0
        rcases hpair c (by rw [h0]; rfl) with h1 | h1
        · rw [h1] at hb; simp at hb
        · exact h1
      simp only [squashRuns, if_pos hb, Bool.false_eq_true, if_false]
      rw [squashRuns_true_eq_false hds, ih htail, hd]
    · simp only [squashRuns, if_neg hb]
      rw [ih htail]

theorem mem_of_head? {α : Type} {l : List α} {a : α} (h : l.head? = some a) : a ∈ l :=
  List.mem_of_mem_head? (by rw [h]; rfl)

theorem mem_of_getLast? {α : Type} {l : List α} {a : α} (h : l.getLast? = some a) :
    a ∈ l := by
  rw [← List.head?_reverse] at h
  exact List.mem_reverse.mp (mem_of_head? h)

theorem dropWhile_eq_self_of_head {p : Char → Bool} {l : List Char}
    (h : ∀ c, l.head? = some c → p c = false) : l.dropWhile p = l := by
  cases l with
  | nil => rfl
  | cons d ds => simp [List.dropWhile_cons, h d rfl]

theorem head?_dropWhile {p : Char → Bool} :
    ∀ {l : List Char} {h : Char}, (l.dropWhile p).head? = some h → p h = false := by
  intro l
  induction l with
  | nil => intro h hh; simp at hh
  | cons d ds ih =>
    intro h hh
    by_cases hp : p d
    · rw [List.dropWhile_cons, if_pos hp] at hh
      exact ih hh
    · rw [List.dropWhile_cons, if_neg hp] at hh
      simp only [List.head?_cons, Option.some.injEq] at hh
      rw [← hh]
      simpa using hp

theorem getLast?_of_suffix {α : Type} {l₁ l₂ : List α} (h : l₁ <:+ l₂) (hne : l₁ ≠ []) :
    l₁.getLast? = l₂.getLast? := by
  rcases h with ⟨t, rfl⟩
  rw [List.getLast?_append]
  cases he : l₁.getLast? with
  | none => exact absurd (List.getLast?_eq_none_iff.mp he) hne
  | some a => rfl

theorem mem_pyStrip {p : Char → Bool} {l : List Char} {c : Char}
    (h : c ∈ pyStrip p l) : c ∈ l := by
  unfold pyStrip dropEndWhile at h
  have h1 := (List.dropWhile_sublist p).subset (List.mem_reverse.mp h)
  exact (List.dropWhile_sublist p).subset (List.mem_reverse.mp h1)

theorem head?_pyStrip {p : Char → Bool} {l : List Char} {h : Char}
    (hh : (pyStrip p l).head? = some h) : p h = false := by
  unfold pyStrip dropEndWhile at hh
  rw [List.head?_reverse] at hh
  have hne : (l.dropWhile p).reverse.dropWhile p ≠ [] := by
    intro h0
    rw [h0] at hh
    simp at hh
  rw [getLast?_of_suffix (List.dropWhile_suffix p) hne, List.getLast?_reverse] at hh
  exact head?_dropWhile hh

theorem getLast?_pyStrip {p : Char → Bool} {l : List Char} {h : Char}
    (hh : (pyStrip p l).getLast? = some h) : p h = false := by
  unfold pyStrip dropEndWhile at hh
  rw [List.getLast?_reverse] at hh
  exact head?_dropWhile hh

theorem pyStrip_eq_self {p : Char → Bool} {l : List Char}
    (h1 : ∀ c, l.head? = some c → p c = false)
    (h2 : ∀ c, l.getLast? = some c → p c = false) : pyStrip p l = l := by
  unfold pyStrip dropEndWhile
  rw [dropWhile_eq_self_of_head h1]
  rw [dropWhile_eq_self_of_head (by intro c hc; rw [List.head?_reverse] at hc; exact h2 c hc)]
  exact List.reverse_reverse l

theorem pyStrip_eq_self_of_all {p : Char → Bool} {l : List Char}
    (h : ∀ c ∈ l, p c = false) : pyStrip p l = l :=
  pyStrip_eq_self (fun c hc => h c (mem_of_head? hc)) (fun c hc => h c (mem_of_getLast? hc))

theorem chain'_pyStrip {R : Char → Char → Prop} (hs : ∀ a b, R a b → R b a)
    {p : Char → Bool} {l : List Char} (h : List.Chain' R l) :
    List.Chain' R (pyStrip p l) := by
  unfold pyStrip dropEndWhile
  have h1 : List.Chain' R (l.dropWhile p) := h.suffix (List.dropWhile_suffix p)
  have h2 : List.Chain' R (l.dropWhile p).reverse :=
    List.chain'_reverse.mpr (h1.imp fun a b hab => hs a b hab)
  have h3 : List.Chain' R ((l.dropWhile p).reverse.dropWhile p) :=
    h2.suffix (List.dropWhile_suffix p)
  exact List.chain'_reverse.mpr (h3.imp fun a b hab => hs a b hab)

/-! ## Properties of sanitize_stem -/

theorem allowed_of_latin1 {U : PyUni} {c : Char} (h : c.toNat < 0x100)
    (hw : latin1Word c.toNat = true) : allowedChar U c = true := by
  simp [allowedChar, pyWord, if_pos h, hw]

theorem pySpace_latin1 {U : PyUni} {c : Char} (h : c.toNat < 0x100) :
    pySpace U c = latin1Space c.toNat := by
  simp [pySpace, if_pos h]

/-- The character class of the spec's regex `[A-Za-z0-9_.\-]`. -/
def asciiStemChar (c : Char) : Bool :=
  let n := c.toNat
  (65 ≤ n && n ≤ 90) || (97 ≤ n && n ≤ 122) || (48 ≤ n && n ≤ 57) ||
    n == 95 || n == 46 || n == 45

theorem mem_sanitize_stem {U : PyUni} {s : List Char} {m : Nat} {c : Char}
    (h : c ∈ sanitize_stem U s m) :
    allowedChar U c = true ∧ (c = '_' ∨ c ∈ s ∨ c ∈ "item".data) := by
  simp only [sanitize_stem] at h
  have h4 := List.mem_of_mem_take h
  by_cases he : (pyStrip (fun c => c == '_')
      (squashRuns (fun c => c == '_') '_' false
        (squashRuns (fun c => ! allowedChar U c) '_' false
          (pyStrip (pySpace U) s)))).isEmpty
  · rw [if_pos he] at h4
    constructor
    · have hc : c = 'i' ∨ c = 't' ∨ c = 'e' ∨ c = 'm' := by simpa using h4
      rcases hc with rfl | rfl | rfl | rfl <;>
        exact allowed_of_latin1 (by decide) (by decide)
    · exact Or.inr (Or.inr h4)
  · rw [if_neg he] at h4
    have h3 := mem_pyStrip h4
    rcases mem_squashRuns h3 with h2 | ⟨h2, _⟩
    · subst h2
      exact ⟨allowed_of_latin1 (by decide) (by decide), Or.inl rfl⟩
    · rcases mem_squashRuns h2 with h1 | ⟨h1, hgood⟩
      · subst h1
        exact ⟨allowed_of_latin1 (by decide) (by decide), Or.inl rfl⟩
      · refine ⟨by simpa using hgood, Or.inr (Or.inl (mem_pyStrip h1))⟩

theorem sanitize_stem_ne_nil {U : PyUni} {s : List Char} {m : Nat} (hm : 0 < m) :
    sanitize_stem U s m ≠ [] := by
  simp only [sanitize_stem]
  intro h0
  rcases List.take_eq_nil_iff.mp h0 with h | h
  · omega
  · by_cases he : (pyStrip (fun c => c == '_')
        (squashRuns (fun c => c == '_') '_' false
          (squashRuns (fun c => ! allowedChar U c) '_' false
            (pyStrip (pySpace U) s)))).isEmpty
    · rw [if_pos he] at h
      simp at h
    · rw [if_neg he] at h
      rw [h] at he
      simp at he

theorem length_sanitize_stem (U : PyUni) (s : List Char) (m : Nat) :
    (sanitize_stem U s m).length ≤ m := by
  simp only [sanitize_stem]
  exact List.length_take_le _ _

theorem head?_sanitize_stem {U : PyUni} {s : List Char} {m : Nat} {h : Char}
    (hh : (sanitize_stem U s m).head? = some h) : (h == '_') = false := by
  simp only [sanitize_stem, List.head?_take] at hh
  by_cases hm : m = 0
  · rw [if_pos hm] at hh; simp at hh
  · rw [if_neg hm] at hh
    by_cases he : (pyStrip (fun c => c == '_')
        (squashRuns (fun c => c == '_') '_' false
          (squashRuns (fun c => ! allowedChar U c) '_' false
            (pyStrip (pySpace U) s)))).isEmpty
    · rw [if_pos he] at hh
      simp only [List.head?_cons, Option.some.injEq] at hh
      rw [← hh]
      decide
    · rw [if_neg he] at hh
      exact head?_pyStrip (p := fun c => c == '_') hh

theorem chain'_sanitize_stem (U : PyUni) (s : List Char) (m : Nat) :
    List.Chain' (fun a b => (a == '_') = false ∨ (b == '_') = false)
      (sanitize_stem U s m) := by
  simp only [sanitize_stem]
  refine List.Chain'.take ?_ m
  by_cases he : (pyStrip (fun c => c == '_')
      (squashRuns (fun c => c == '_') '_' false
        (squashRuns (fun c => ! allowedChar U c) '_' false
          (pyStrip (pySpace U) s)))).isEmpty
  · rw [if_pos he]
    exact chain'_of_forall_good (by decide)
  · rw [if_neg he]
    exact chain'_pyStrip (fun a b hab => hab.symm) (chain'_squashRuns)

theorem ascii_of_allowed {U : PyUni} {c : Char} (hc : c.toNat < 128)
    (ha : allowedChar U c = true) : asciiStemChar c = true := by
  simp only [allowedChar, Bool.or_eq_true, beq_iff_eq] at ha
  rcases ha with (hw | rfl) | rfl
  · simp only [pyWord, if_pos (show c.toNat < 0x100 by omega)] at hw
    simp only [latin1Word, Bool.or_eq_true, Bool.and_eq_true, decide_eq_true_eq,
      beq_iff_eq] at hw
    simp only [asciiStemChar, Bool.or_eq_true, Bool.and_eq_true, decide_eq_true_eq,
      beq_iff_eq]
    omega
  · decide
  · decide

/-- Claim C5 (amended).  `sanitize_stem` is total by construction; with the
default `max_length` of 80 its result is non-empty, at most 80 characters,
and each character is in the kept class (Python word character, hyphen or
dot — the inserted separator `'_'` itself being a word character).  The
spec's ASCII regex `^[A-Za-z0-9_.\-]{1,80}$` is guaranteed only when the
input is pure ASCII, since Python's Unicode-aware `\w` also keeps
non-ASCII word characters (see the counterexample). -/
theorem claim_C5_sanitize_total (U : PyUni) (s : List Char) :
    sanitize_stem U s 80 ≠ [] ∧
    (sanitize_stem U s 80).length ≤ 80 ∧
    (∀ c ∈ sanitize_stem U s 80, allowedChar U c = true) ∧
    ((∀ c ∈ s, c.toNat < 128) → ∀ c ∈ sanitize_stem U s 80, asciiStemChar c = true) := by
  refine ⟨sanitize_stem_ne_nil (by omega), length_sanitize_stem U s 80,
    fun c hc => (mem_sanitize_stem hc).1, ?_⟩
  intro hs c hc
  rcases mem_sanitize_stem hc with ⟨hall, horig⟩
  rcases horig with rfl | horig | horig
  · decide
  · exact ascii_of_allowed (hs c horig) hall
  · have hi : c = 'i' ∨ c = 't' ∨ c = 'e' ∨ c = 'm' := by simpa using horig
    rcases hi with rfl | rfl | rfl | rfl <;> decide

/-- Claim C5, counterexample to the claim as stated: on input `"é"` the
output is `"é"` (é is a Python word character), which is not in the
ASCII class `[A-Za-z0-9_.\-]` the claim requires of every output
character. -/
theorem claim_C5_counterexample :
    'é' ∈ sanitize_stem pyUni0 "é".data 80 ∧ asciiStemChar 'é' = false := by decide

theorem claim_C5_witness : asciiStemChar 'M' = true :=
  (claim_C5_sanitize_total pyUni0 "My Font!".data).2.2.2 (by decide) 'M' (by decide)

/-- Input showing `sanitize_stem` is not idempotent: 81 characters whose
sanitized form is cut at 80 characters right after an underscore, which a
second application then strips. -/
def c6Input : List Char := List.replicate 79 'a' ++ "_b".data

/-- Claim C6, counterexample to the claim as stated: truncation to
`max_length` can leave a trailing underscore, which re-sanitizing strips,
so `sanitize_stem` is not idempotent. -/
theorem claim_C6_counterexample :
    sanitize_stem pyUni0 (sanitize_stem pyUni0 c6Input 80) 80
      ≠ sanitize_stem pyUni0 c6Input 80 := by decide

/-- Claim C6 (amended): `sanitize_stem` at `max_length` 80 is idempotent
on every input whose sanitized form does not end in an underscore — a
trailing underscore can only be created by the final truncation, so
re-application changes nothing except in that truncation corner case. -/
theorem claim_C6_sanitize_idempotent (U : PyUni) (s : List Char)
    (h : (sanitize_stem U s 80).getLast? ≠ some '_') :
    sanitize_stem U (sanitize_stem U s 80) 80 = sanitize_stem U s 80 := by
  set t := sanitize_stem U s 80 with ht
  have hmem : ∀ c ∈ t, allowedChar U c = true := fun c hc => (mem_sanitize_stem hc).1
  have hnospace : ∀ c ∈ t, pySpace U c = false := by
    intro c hc
    have ha := hmem c hc
    simp only [allowedChar, Bool.or_eq_true, beq_iff_eq] at ha
    rcases ha with (hw | rfl) | rfl
    · exact pyWord_not_space U c hw
    · rw [pySpace_latin1 (by decide)]; decide
    · rw [pySpace_latin1 (by decide)]; decide
  have h1 : pyStrip (pySpace U) t = t := pyStrip_eq_self_of_all hnospace
  have h2 : squashRuns (fun c => ! allowedChar U c) '_' false t = t :=
    squashRuns_eq_self (fun c hc => by simp [hmem c hc]) false
  have h3 : squashRuns (fun c => c == '_') '_' false t = t :=
    squashRuns_eq_self_of_chain' (fun c hc => by simpa using hc)
      (chain'_sanitize_stem U s 80)
  have h4 : pyStrip (fun c => c == '_') t = t := by
    refine pyStrip_eq_self (fun c hc => head?_sanitize_stem hc) ?_
    intro c hc
    have hne : c ≠ '_' := by
      intro h0
      exact h (h0 ▸ hc)
    simpa using hne
  have h5 : t.isEmpty = false := List.isEmpty_eq_false.mpr (sanitize_stem_ne_nil (by omega))
  have h6 : t.take 80 = t := List.take_of_length_le (length_sanitize_stem U s 80)
  calc sanitize_stem U t 80
      = (if t.isEmpty then "item".data else t).take 80 := by
        simp only [sanitize_stem, h1, h2, h3, h4]
    _ = t := by rw [h5]; simpa using h6

theorem claim_C6_witness :
    sanitize_stem pyUni0 (sanitize_stem pyUni0 "a b".data 80) 80
      = sanitize_stem pyUni0 "a b".data 80 :=
  claim_C6_sanitize_idempotent pyUni0 "a b".data (by decide)

/-! ## Properties of safe_move -/

theorem findFree_some {ex : List (List Char)} {dst : List Char} :
    ∀ {fuel i : Nat} {p : List Char}, findFree ex dst i fuel = some p →
      ∃ k, i ≤ k ∧ k < i + fuel ∧ p = candName dst k ∧
        ex.contains (candName dst k) = false ∧
        ∀ j, i ≤ j → j < k → ex.contains (candName dst j) = true := by
  intro fuel
  induction fuel with
  | zero => intro i p h; simp [findFree] at h
  | succ fuel ih =>
    intro i p h
    by_cases hc : ex.contains (candName dst i)
    · simp only [findFree, hc, Bool.not_true, Bool.false_eq_true, if_false] at h
      rcases ih h with ⟨k, hk1, hk2, hk3, hk4, hk5⟩
      refine ⟨k, by omega, by omega, hk3, hk4, ?_⟩
      intro j hj1 hj2
      rcases Nat.eq_or_lt_of_le hj1 with rfl | hj
      · exact hc
      · exact hk5 j hj hj2
    · rw [Bool.not_eq_true] at hc
      simp only [findFree, hc, Bool.not_false, if_true, Option.some.injEq] at h
      exact ⟨i, le_refl i, by omega, h.symm, hc, fun j hj1 hj2 => by omega⟩

theorem findFree_none {ex : List (List Char)} {dst : List Char} :
    ∀ {fuel i : Nat}, (∀ k, i ≤ k → k < i + fuel → ex.contains (candName dst k) = true) →
      findFree ex dst i fuel = none := by
  intro fuel
  induction fuel with
  | zero => intro i _; rfl
  | succ fuel ih =>
    intro i h
    have hc : ex.contains (candName dst i) = true := h i (le_refl i) (by omega)
    simp only [findFree, hc, Bool.not_true, Bool.false_eq_true, if_false]
    exact ih fun k hk1 hk2 => h k (by omega) (by omega)

/-- Claim C4: `safe_move` moves to the destination itself when it is
free; otherwise it tries the zero-padded candidates `_01`, `_02`, … in
increasing order and moves to the first free one, never returning a name
that already exists (so never overwriting); the spec's two concrete
collision examples hold; and when the destination and all 9999
candidates exist it fails (the `RuntimeError`). -/
theorem claim_C4_safe_move (existing : List (List Char)) (dst : List Char) :
    (existing.contains dst = false → safe_move existing dst = some dst) ∧
    (∀ p, safe_move existing dst = some p → existing.contains p = false) ∧
    (existing.contains dst = true → ∀ p, safe_move existing dst = some p →
      ∃ k, 1 ≤ k ∧ k ≤ 9999 ∧ p = candName dst k ∧
        ∀ j, 1 ≤ j → j < k → existing.contains (candName dst j) = true) ∧
    ((existing.contains dst = true ∧
        ∀ k, 1 ≤ k → k ≤ 9999 → existing.contains (candName dst k) = true) →
      safe_move existing dst = none) ∧
    safe_move ["a.stl".data] "a.stl".data = some "a_01.stl".data ∧
    safe_move ["a.stl".data, "a_01.stl".data] "a.stl".data = some "a_02.stl".data := by
  refine ⟨?_, ?_, ?_, ?_, by decide, by decide⟩
  · intro h
    simp only [safe_move, h, Bool.not_false, if_true]
  · intro p hp
    by_cases h : existing.contains dst
    · simp only [safe_move, h, Bool.not_true, Bool.false_eq_true, if_false] at hp
      rcases findFree_some hp with ⟨k, _, _, hk3, hk4, _⟩
      rw [hk3]
      exact hk4
    · simp only [Bool.not_eq_true] at h
      simp only [safe_move, h, Bool.not_false, if_true, Option.some.injEq] at hp
      rw [← hp]
      exact h
  · intro h p hp
    simp only [safe_move, h, Bool.not_true, Bool.false_eq_true, if_false] at hp
    rcases findFree_some hp with ⟨k, hk1, hk2, hk3, _, hk5⟩
    exact ⟨k, hk1, by omega, hk3, fun j hj1 hj2 => hk5 j hj1 hj2⟩
  · rintro ⟨h1, h2⟩
    simp only [safe_move, h1, Bool.not_true, Bool.false_eq_true, if_false]
    exact findFree_none fun k hk1 hk2 => h2 k hk1 (by omega)

theorem claim_C4_witness : safe_move ["x.stl".data] "y.stl".data = some "y.stl".data :=
  (claim_C4_safe_move ["x.stl".data] "y.stl".data).1 (by decide)

/-! ## Claims about load_phrases and iter_ttf_fonts -/

theorem load_phrases_eq_filter (U : PyUni) (lines : List (List Char)) :
    load_phrases U (some lines) =
      (lines.map (pyStrip (pySpace U))).filter
        (fun s => !s.isEmpty && !(s.head? == some '#')) := by
  induction lines with
  | nil => rfl
  | cons a as ih =>
    simp only [load_phrases] at ih ⊢
    rw [List.filterMap_cons, List.map_cons, List.filter_cons]
    by_cases h1 : (pyStrip (pySpace U) a).isEmpty
    · simp only [h1, if_true, ih, Bool.not_true, Bool.false_and, Bool.false_eq_true,
        if_false]
    · rw [Bool.not_eq_true] at h1
      by_cases h2 : (pyStrip (pySpace U) a).head? == some '#'
      · simp only [h1, Bool.false_eq_true, if_false, h2, if_true, ih, Bool.not_true,
          Bool.not_false, Bool.true_and]
      · rw [Bool.not_eq_true] at h2
        simp only [h1, Bool.false_eq_true, if_false, h2, ih, Bool.not_false,
          Bool.true_and, if_true]

/-- Claim C10: `load_phrases` keeps, in file order and with duplicates
preserved, the stripped content of exactly the lines that are non-empty
after stripping and do not then start with `#` (so a comment indented
with whitespace is excluded); a missing file gives `[]` rather than an
exception.  The concrete run shows the indented comment, the blank line
and duplicate preservation. -/
theorem claim_C10_load_phrases (U : PyUni) (lines : List (List Char)) :
    load_phrases U none = [] ∧
    load_phrases U (some lines) =
      (lines.map (pyStrip (pySpace U))).filter
        (fun s => !s.isEmpty && !(s.head? == some '#')) ∧
    load_phrases pyUni0
        (some ["  # c".data, "x".data, " x ".data, "".data, "x".data])
      = ["x".data, "x".data, "x".data] :=
  ⟨rfl, load_phrases_eq_filter U lines, by decide⟩

instance : IsTotal (List Char) pathle :=
  ⟨fun a b => le_total (pathParts a) (pathParts b)⟩

instance : IsTrans (List Char) pathle := ⟨fun _ _ _ h1 h2 => le_trans h1 h2⟩

instance : IsAntisymm (List Char) pathle :=
  ⟨fun _ _ h1 h2 => pathParts_injective (le_antisymm h1 h2)⟩

theorem sorted_sortPaths (listing : List (List Char)) :
    List.Sorted pathle (sortPaths listing) :=
  List.sorted_insertionSort pathle listing

theorem perm_sortPaths (listing : List (List Char)) :
    (sortPaths listing).Perm listing :=
  List.perm_insertionSort pathle listing

/-- Claim C9: `iter_ttf_fonts` yields exactly the regular files of the
listing whose (pathlib) extension lowers to `.ttf`, in sorted path order
(pathlib's parts-tuple order: `fonts/a/b.ttf` before `fonts/a.c/d.ttf`),
deterministically: permuting the traversal order of the directory tree
does not change the output.  All other regular files are exactly the
ones warned about and skipped. -/
theorem claim_C9_iter_ttf (isFile : List Char → Bool)
    (listing listing2 : List (List Char)) :
    List.Sorted pathle (iter_ttf_fonts isFile listing) ∧
    (∀ p, p ∈ iter_ttf_fonts isFile listing ↔
      p ∈ listing ∧ isFile p = true ∧ isTtf p = true) ∧
    (∀ p, p ∈ iter_ttf_warnings isFile listing ↔
      p ∈ listing ∧ isFile p = true ∧ isTtf p = false) ∧
    (listing.Perm listing2 →
      iter_ttf_fonts isFile listing = iter_ttf_fonts isFile listing2) ∧
    isTtf "fonts/F.TtF".data = true ∧
    isTtf "fonts/F.ttf.bak".data = false ∧
    isTtf "fonts/.ttf".data = false ∧
    iter_ttf_fonts (fun _ => true) ["fonts/a.c/d.ttf".data, "fonts/a/b.ttf".data]
      = ["fonts/a/b.ttf".data, "fonts/a.c/d.ttf".data] := by
  refine ⟨?_, ?_, ?_, ?_, by decide, by decide, by decide, by decide⟩
  · exact (sorted_sortPaths listing).sublist (List.filter_sublist _)
  · intro p
    unfold iter_ttf_fonts
    rw [List.mem_filter]
    constructor
    · rintro ⟨h1, h2⟩
      rw [Bool.and_eq_true] at h2
      exact ⟨(perm_sortPaths listing).mem_iff.mp h1, h2.1, h2.2⟩
    · rintro ⟨h1, h2, h3⟩
      exact ⟨(perm_sortPaths listing).mem_iff.mpr h1, by rw [h2, h3]; rfl⟩
  · intro p
    unfold iter_ttf_warnings
    rw [List.mem_filter]
    constructor
    · rintro ⟨h1, h2⟩
      rw [Bool.and_eq_true] at h2
      refine ⟨(perm_sortPaths listing).mem_iff.mp h1, h2.1, by simpa using h2.2⟩
    · rintro ⟨h1, h2, h3⟩
      refine ⟨(perm_sortPaths listing).mem_iff.mpr h1, by rw [h2, h3]; rfl⟩
  · intro hperm
    have hp : (iter_ttf_fonts isFile listing).Perm (iter_ttf_fonts isFile listing2) := by
      unfold iter_ttf_fonts
      exact ((perm_sortPaths listing).trans (hperm.trans
        (perm_sortPaths listing2).symm)).filter _
    exact List.eq_of_perm_of_sorted hp
      ((sorted_sortPaths listing).sublist (List.filter_sublist _))
      ((sorted_sortPaths listing2).sublist (List.filter_sublist _))

theorem claim_C9_witness :
    iter_ttf_fonts (fun _ => true) ["b.ttf".data, "a.ttf".data]
      = iter_ttf_fonts (fun _ => true) ["a.ttf".data, "b.ttf".data] :=
  (claim_C9_iter_ttf (fun _ => true) ["b.ttf".data, "a.ttf".data]
    ["a.ttf".data, "b.ttf".data]).2.2.2.1 (by decide)

/-! ## Properties of the download watcher -/

theorem foldl_pick_mem : ∀ (fs : List FileInfo) (acc : FileInfo),
    fs.foldl (fun best g => if best.mtime < g.mtime then g else best) acc ∈ acc :: fs := by
  intro fs
  induction fs with
  | nil => intro acc; simp
  | cons g gs ih =>
    intro acc
    rw [List.foldl_cons]
    rcases List.mem_cons.mp (ih (if acc.mtime < g.mtime then g else acc)) with h1 | h1
    · rw [h1]
      by_cases hm : acc.mtime < g.mtime
      · rw [if_pos hm]
        exact List.mem_cons_of_mem _ (List.mem_cons_self _ _)
      · rw [if_neg hm]
        exact List.mem_cons_self _ _
    · exact List.mem_cons_of_mem _ (List.mem_cons_of_mem _ h1)

theorem pickLatest_mem {l : List FileInfo} {f : FileInfo} (h : pickLatest l = some f) :
    f ∈ l := by
  cases l with
  | nil => simp [pickLatest] at h
  | cons g gs =>
    simp only [pickLatest, Option.some.injEq] at h
    rw [← h]
    exact foldl_pick_mem gs g

theorem newDownloads_spec {before : List (List Char)} {p : Poll} {f : FileInfo}
    (h : f ∈ newDownloads before p) :
    f ∈ p.files ∧ before.contains f.name = false ∧ isPartialDownload f.name = false := by
  unfold newDownloads at h
  rw [List.mem_filter] at h
  obtain ⟨h1, h2⟩ := h
  rw [Bool.and_eq_true, Bool.not_eq_true', Bool.not_eq_true'] at h2
  exact ⟨h1, h2.1, h2.2⟩

theorem watchLoop_not_pending {before : List (List Char)} {dl : ℚ} :
    ∀ {polls : List Poll} {ls : Option Nat} {ss : Option ℚ},
      (∃ p ∈ polls, dl ≤ p.tGuard) →
      watchLoop before dl ls ss polls ≠ .pending := by
  intro polls
  induction polls with
  | nil => rintro ls ss ⟨p, hp, _⟩; simp at hp
  | cons p rest ih =>
    rintro ls ss ⟨q, hq, hqg⟩
    simp only [watchLoop]
    by_cases hg : p.tGuard < dl
    · rw [if_pos hg]
      have hqrest : q ∈ rest := by
        rcases List.mem_cons.mp hq with rfl | h
        · exact absurd hg (not_lt.mpr hqg)
        · exact h
      have hrest : ∃ r ∈ rest, dl ≤ r.tGuard := ⟨q, hqrest, hqg⟩
      cases hpick : pickLatest (newDownloads before p) with
      | none => exact ih hrest
      | some cand =>
        dsimp only
        by_cases hne : ls ≠ some cand.size
        · rw [if_pos hne]
          exact ih hrest
        · rw [if_neg hne]
          cases ss with
          | none => exact ih hrest
          | some t =>
            dsimp only
            by_cases hw : p.tNow - t ≥ 1
            · rw [if_pos hw]
              simp
            · rw [if_neg hw]
              exact ih hrest
    · rw [if_neg hg]
      simp

theorem watchLoop_timeout_of_no_new {before : List (List Char)} {dl : ℚ} :
    ∀ {polls : List Poll} {ls : Option Nat} {ss : Option ℚ},
      (∃ p ∈ polls, dl ≤ p.tGuard) →
      (∀ p ∈ polls, p.tGuard < dl → newDownloads before p = []) →
      watchLoop before dl ls ss polls = .timedOut := by
  intro polls
  induction polls with
  | nil => rintro ls ss ⟨p, hp, _⟩; simp at hp
  | cons p rest ih =>
    rintro ls ss ⟨q, hq, hqg⟩ hnew
    simp only [watchLoop]
    by_cases hg : p.tGuard < dl
    · rw [if_pos hg]
      have hqrest : q ∈ rest := by
        rcases List.mem_cons.mp hq with rfl | h
        · exact absurd hg (not_lt.mpr hqg)
        · exact h
      rw [hnew p (List.mem_cons_self _ _) hg]
      exact ih ⟨q, hqrest, hqg⟩ fun r hr hrg => hnew r (List.mem_cons_of_mem _ hr) hrg
    · rw [if_neg hg]

theorem watchLoop_found_basic {before : List (List Char)} {dl : ℚ} {f : FileInfo} :
    ∀ {polls : List Poll} {ls : Option Nat} {ss : Option ℚ},
      watchLoop before dl ls ss polls = .found f →
      isPartialDownload f.name = false ∧ before.contains f.name = false ∧
      ∃ p ∈ polls, p.tGuard < dl ∧ f ∈ p.files := by
  intro polls
  induction polls with
  | nil => intro ls ss h; simp [watchLoop] at h
  | cons p rest ih =>
    intro ls ss h
    simp only [watchLoop] at h
    by_cases hg : p.tGuard < dl
    · rw [if_pos hg] at h
      cases hpick : pickLatest (newDownloads before p) with
      | none =>
        rw [hpick] at h
        rcases ih h with ⟨h1, h2, q, hq, hqg, hqf⟩
        exact ⟨h1, h2, q, List.mem_cons_of_mem _ hq, hqg, hqf⟩
      | some cand =>
        rw [hpick] at h
        dsimp only at h
        by_cases hne : ls ≠ some cand.size
        · rw [if_pos hne] at h
          rcases ih h with ⟨h1, h2, q, hq, hqg, hqf⟩
          exact ⟨h1, h2, q, List.mem_cons_of_mem _ hq, hqg, hqf⟩
        · rw [if_neg hne] at h
          cases ss with
          | none =>
            rcases ih h with ⟨h1, h2, q, hq, hqg, hqf⟩
            exact ⟨h1, h2, q, List.mem_cons_of_mem _ hq, hqg, hqf⟩
          | some t =>
            dsimp only at h
            by_cases hw : p.tNow - t ≥ 1
            · rw [if_pos hw] at h
              have hcf : cand = f := by
                injection h
              subst hcf
              rcases newDownloads_spec (pickLatest_mem hpick) with ⟨h1, h2, h3⟩
              exact ⟨h3, h2, p, List.mem_cons_self _ _, hg, h1⟩
            · rw [if_neg hw] at h
              rcases ih h with ⟨h1, h2, q, hq, hqg, hqf⟩
              exact ⟨h1, h2, q, List.mem_cons_of_mem _ hq, hqg, hqf⟩
    · rw [if_neg hg] at h
      simp at h

/-- Claim C3: on every observation trace long enough to reach the
deadline, the watcher terminates: it either raises `TimeoutError` or
returns a file, and any returned file is non-partial, new since the
snapshot, and was listed by a poll whose guard clock was still before
the deadline; the moment the guard clock reaches the deadline the call
raises without any further polling; and if no poll before the deadline
ever shows a new non-partial file, the call raises `TimeoutError`. -/
theorem claim_C3_watcher_timeout (before : List (List Char)) (dl : ℚ)
    (polls : List Poll) (hexp : ∃ p ∈ polls, dl ≤ p.tGuard) :
    (wait_for_new_download before dl polls = .timedOut ∨
      ∃ f, wait_for_new_download before dl polls = .found f) ∧
    (∀ f, wait_for_new_download before dl polls = .found f →
      isPartialDownload f.name = false ∧ before.contains f.name = false ∧
      ∃ p ∈ polls, p.tGuard < dl ∧ f ∈ p.files) ∧
    (∀ (ls : Option Nat) (ss : Option ℚ) (p : Poll) (rest : List Poll),
      dl ≤ p.tGuard → watchLoop before dl ls ss (p :: rest) = .timedOut) ∧
    ((∀ p ∈ polls, p.tGuard < dl → newDownloads before p = []) →
      wait_for_new_download before dl polls = .timedOut) := by
  refine ⟨?_, fun f hf => watchLoop_found_basic hf, ?_, ?_⟩
  · cases hr : wait_for_new_download before dl polls with
    | found f => exact Or.inr ⟨f, rfl⟩
    | timedOut => exact Or.inl rfl
    | pending => exact absurd hr (watchLoop_not_pending hexp)
  · intro ls ss p rest hp
    simp only [watchLoop]
    rw [if_neg (not_lt.mpr hp)]
  · intro hno
    exact watchLoop_timeout_of_no_new hexp hno

theorem claim_C3_witness :
    wait_for_new_download [] 180 [⟨200, [], 200⟩] = .timedOut :=
  (claim_C3_watcher_timeout [] 180 [⟨200, [], 200⟩]
    ⟨⟨200, [], 200⟩, by decide, by decide⟩).2.2.2 (by decide)

/-- The watcher accepted file `f` at poll `i` of the trace: that poll ran
before the deadline, selected `f` as candidate, and so did every poll up
to `i` (the loop never polls once the guard clock passes the deadline). -/
def AcceptAt (before : List (List Char)) (dl : ℚ) (polls : List Poll)
    (f : FileInfo) (i : Nat) (P : Poll) : Prop :=
  polls[i]? = some P ∧ P.tGuard < dl ∧
  pickLatest (newDownloads before P) = some f ∧
  ∀ k R, k ≤ i → polls[k]? = some R → R.tGuard < dl

/-- A full quiescence window inside the trace before accepting poll `i`:
some poll `j`, at least one second of `tNow` clock earlier, selected a
candidate of the same size as `f`, and every candidate selected from `j`
through `i` has that size (the watcher's `last_size` was never reset in
between). -/
def WindowOK (before : List (List Char)) (polls : List Poll) (f : FileInfo)
    (i : Nat) (P : Poll) : Prop :=
  ∃ j Q, polls[j]? = some Q ∧ j ≤ i ∧
    (∃ g, pickLatest (newDownloads before Q) = some g ∧ g.size = f.size) ∧
    P.tNow - Q.tNow ≥ 1 ∧
    ∀ k R g, j ≤ k → k ≤ i → polls[k]? = some R →
      pickLatest (newDownloads before R) = some g → g.size = f.size

/-- A quiescence window inherited from the loop state `(ls, ss)` at entry
(used only for the generalized induction; the initial state is
`(none, none)`, which rules this case out). -/
def InheritedOK (before : List (List Char)) (polls : List Poll) (f : FileInfo)
    (i : Nat) (P : Poll) (ls : Option Nat) (ss : Option ℚ) : Prop :=
  ∃ t, ss = some t ∧ ls = some f.size ∧ P.tNow - t ≥ 1 ∧
    ∀ k R g, k ≤ i → polls[k]? = some R →
      pickLatest (newDownloads before R) = some g → g.size = f.size

theorem acceptAt_lift {before : List (List Char)} {dl : ℚ} {p : Poll} {rest : List Poll}
    {f : FileInfo} {i : Nat} {P : Poll} (hg : p.tGuard < dl)
    (h : AcceptAt before dl rest f i P) : AcceptAt before dl (p :: rest) f (i + 1) P := by
  obtain ⟨h1, h2, h3, h4⟩ := h
  refine ⟨by simpa using h1, h2, h3, ?_⟩
  intro k R hk hkR
  cases k with
  | zero =>
    rw [List.getElem?_cons_zero] at hkR
    injection hkR with e
    rw [← e]
    exact hg
  | succ k' =>
    rw [List.getElem?_cons_succ] at hkR
    exact h4 k' R (by omega) hkR

theorem windowOK_lift {before : List (List Char)} {p : Poll} {rest : List Poll}
    {f : FileInfo} {i : Nat} {P : Poll}
    (h : WindowOK before rest f i P) : WindowOK before (p :: rest) f (i + 1) P := by
  obtain ⟨j, Q, h1, h2, h3, h4, h5⟩ := h
  refine ⟨j + 1, Q, by simpa using h1, by omega, h3, h4, ?_⟩
  intro k R g hk1 hk2 hk3 hk4
  cases k with
  | zero => omega
  | succ k' =>
    rw [List.getElem?_cons_succ] at hk3
    exact h5 k' R g (by omega) (by omega) hk3 hk4

theorem inheritedOK_lift {before : List (List Char)} {p : Poll} {rest : List Poll}
    {f : FileInfo} {i : Nat} {P : Poll} {ls : Option Nat} {ss : Option ℚ}
    (hp : ∀ g, pickLatest (newDownloads before p) = some g → g.size = f.size)
    (h : InheritedOK before rest f i P ls ss) :
    InheritedOK before (p :: rest) f (i + 1) P ls ss := by
  obtain ⟨t, h1, h2, h3, h4⟩ := h
  refine ⟨t, h1, h2, h3, ?_⟩
  intro k R g hk1 hk2 hk3
  cases k with
  | zero =>
    rw [List.getElem?_cons_zero] at hk2
    injection hk2 with e
    rw [← e] at hk3
    exact hp g hk3
  | succ k' =>
    rw [List.getElem?_cons_succ] at hk2
    exact h4 k' R g (by omega) hk2 hk3

theorem windowOK_of_reset {before : List (List Char)} {p : Poll} {rest : List Poll}
    {f : FileInfo} {i : Nat} {P : Poll} {cand : FileInfo}
    (hp : pickLatest (newDownloads before p) = some cand)
    (h : InheritedOK before rest f i P (some cand.size) (some p.tNow)) :
    WindowOK before (p :: rest) f (i + 1) P := by
  obtain ⟨t, h1, h2, h3, h4⟩ := h
  injection h1 with h1
  injection h2 with h2
  refine ⟨0, p, by simp, by omega, ⟨cand, hp, h2⟩, by rw [h1]; exact h3, ?_⟩
  intro k R g hk1 hk2 hk3 hk4
  cases k with
  | zero =>
    rw [List.getElem?_cons_zero] at hk3
    injection hk3 with e
    rw [← e, hp] at hk4
    injection hk4 with e2
    rw [← e2]
    exact h2
  | succ k' =>
    rw [List.getElem?_cons_succ] at hk3
    exact h4 k' R g (by omega) hk3 hk4

theorem watchLoop_found_spec {before : List (List Char)} {dl : ℚ} {f : FileInfo} :
    ∀ {polls : List Poll} {ls : Option Nat} {ss : Option ℚ},
      watchLoop before dl ls ss polls = .found f →
      ∃ i P, AcceptAt before dl polls f i P ∧
        (WindowOK before polls f i P ∨ InheritedOK before polls f i P ls ss) := by
  intro polls
  induction polls with
  | nil => intro ls ss h; simp [watchLoop] at h
  | cons p rest ih =>
    intro ls ss h
    simp only [watchLoop] at h
    by_cases hg : p.tGuard < dl
    · rw [if_pos hg] at h
      cases hpick : pickLatest (newDownloads before p) with
      | none =>
        rw [hpick] at h
        dsimp only at h
        obtain ⟨i, P, hacc, hwin⟩ := ih h
        refine ⟨i + 1, P, acceptAt_lift hg hacc, ?_⟩
        rcases hwin with hw | hw
        · exact Or.inl (windowOK_lift hw)
        · refine Or.inr (inheritedOK_lift ?_ hw)
          intro g hg'
          rw [hpick] at hg'
          exact absurd hg' (by simp)
      | some cand =>
        rw [hpick] at h
        dsimp only at h
        by_cases hne : ls ≠ some cand.size
        · rw [if_pos hne] at h
          obtain ⟨i, P, hacc, hwin⟩ := ih h
          refine ⟨i + 1, P, acceptAt_lift hg hacc, Or.inl ?_⟩
          rcases hwin with hw | hw
          · exact windowOK_lift hw
          · exact windowOK_of_reset hpick hw
        · rw [if_neg hne] at h
          have hls : ls = some cand.size := not_not.mp hne
          cases ss with
          | none =>
            dsimp only at h
            obtain ⟨i, P, hacc, hwin⟩ := ih h
            refine ⟨i + 1, P, acceptAt_lift hg hacc, ?_⟩
            rcases hwin with hw | hw
            · exact Or.inl (windowOK_lift hw)
            · obtain ⟨t, h1, _⟩ := hw
              exact absurd h1 (by simp)
          | some t =>
            dsimp only at h
            by_cases hw1 : p.tNow - t ≥ 1
            · rw [if_pos hw1] at h
              have hcf : cand = f := by injection h
              subst hcf
              refine ⟨0, p, ⟨by simp, hg, hpick, ?_⟩, Or.inr ⟨t, rfl, hls, hw1, ?_⟩⟩
              · intro k R hk hkR
                interval_cases k
                rw [List.getElem?_cons_zero] at hkR
                injection hkR with e
                rw [← e]
                exact hg
              · intro k R g hk hkR hkp
                interval_cases k
                rw [List.getElem?_cons_zero] at hkR
                injection hkR with e
                rw [← e, hpick] at hkp
                injection hkp with e2
                rw [← e2]
            · rw [if_neg hw1] at h
              obtain ⟨i, P, hacc, hwin⟩ := ih h
              refine ⟨i + 1, P, acceptAt_lift hg hacc, ?_⟩
              rcases hwin with hw | hw
              · exact Or.inl (windowOK_lift hw)
              · refine Or.inr (inheritedOK_lift ?_ hw)
                intro g hg'
                rw [hpick] at hg'
                injection hg' with e
                obtain ⟨t', ht', hls', _⟩ := hw
                rw [hls] at hls'
                injection hls' with e2
                rw [← e, ← e2]
    · rw [if_neg hg] at h
      simp at h

/-- Claim C1 (amended): any file the watcher returns is a regular file
listed in the accepting poll, new since the `before` snapshot and not
partial-flagged (a partial-flagged file is never returned); all polling
happened before the deadline; and the watcher's tracked size stayed
equal to the returned file's size for a full 1-second window: some poll
at least one second earlier selected a candidate of that size and every
candidate selected since had that size.  (The returned file itself may
have become the candidate only at the final poll — see the
counterexample — so the claim's "its observed size remained unchanged
across polls for the window" does not hold of the returned file.) -/
theorem claim_C1_watcher_returns (before : List (List Char)) (dl : ℚ)
    (polls : List Poll) (f : FileInfo)
    (h : wait_for_new_download before dl polls = .found f) :
    isPartialDownload f.name = false ∧ before.contains f.name = false ∧
    ∃ i P, AcceptAt before dl polls f i P ∧ f ∈ P.files ∧
      WindowOK before polls f i P := by
  obtain ⟨i, P, hacc, hwin⟩ := watchLoop_found_spec h
  obtain ⟨hmem, hbef, hpart⟩ := newDownloads_spec (pickLatest_mem hacc.2.2.1)
  refine ⟨hpart, hbef, i, P, hacc, hmem, ?_⟩
  rcases hwin with hw | hw
  · exact hw
  · obtain ⟨t, ht, _⟩ := hw
    exact absurd ht (by simp)

/-- Stale file already complete when the watcher starts tracking. -/
def watchFA : FileInfo := ⟨"a.stl".data, 5, 0⟩

/-- File appearing, with the same size, only at the final poll. -/
def watchFB : FileInfo := ⟨"b.stl".data, 5, 1⟩

/-- First poll: only `watchFA` is present. -/
def watchP1 : Poll := ⟨0, [watchFA], 0⟩

/-- Second poll, 2 seconds later: `watchFB` has appeared with a newer
mtime and the same size as `watchFA`. -/
def watchP2 : Poll := ⟨2, [watchFA, watchFB], 2⟩

theorem wait_two_polls_found :
    wait_for_new_download [] 180 [watchP1, watchP2] = .found watchFB := by
  have h1 : pickLatest (newDownloads [] watchP1) = some watchFA := by decide
  have h2 : pickLatest (newDownloads [] watchP2) = some watchFB := by decide
  have g1 : watchP1.tGuard < 180 := by norm_num [watchP1]
  have g2 : watchP2.tGuard < 180 := by norm_num [watchP2]
  have hsz : watchFA.size = 5 := by decide
  have hsz2 : watchFB.size = 5 := by decide
  have w : watchP2.tNow - watchP1.tNow ≥ 1 := by norm_num [watchP1, watchP2]
  simp only [wait_for_new_download, watchLoop, h1, h2, g1, g2, hsz, hsz2, w,
    if_true, ne_eq, Option.some.injEq, reduceCtorEq, not_false_eq_true, ite_true,
    ite_false]
  simp

/-- Claim C1, counterexample to the claim as stated: the watcher returns
`watchFB`, a file whose existence (and hence size) was observed for the
first time at the very poll that returned it — zero seconds, not the
1-second quiescence window, because the size-stability state built up by
the stale file `watchFA` carries over when the most-recent candidate
switches to a new file of equal size. -/
theorem claim_C1_counterexample :
    wait_for_new_download [] 180 [watchP1, watchP2] = .found watchFB ∧
    watchFB ∉ newDownloads [] watchP1 ∧
    watchP2.tNow - watchP2.tNow < 1 :=
  ⟨wait_two_polls_found, by decide, by norm_num⟩

theorem claim_C1_witness :
    isPartialDownload watchFB.name = false ∧ List.contains [] watchFB.name = false :=
  ⟨(claim_C1_watcher_returns [] 180 [watchP1, watchP2] watchFB wait_two_polls_found).1,
   (claim_C1_watcher_returns [] 180 [watchP1, watchP2] watchFB wait_two_polls_found).2.1⟩

/-! ## Properties of the batch orchestrator -/

theorem contains_eq_false {l : List (List Char)} {a : List Char} :
    l.contains a = false ↔ a ∉ l := by
  simp [List.contains, List.elem_eq_mem]

theorem safe_move_not_mem {ex : List (List Char)} {dst p : List Char}
    (hp : safe_move ex dst = some p) : p ∉ ex := by
  by_cases h : ex.contains dst
  · simp only [safe_move, h, Bool.not_true, Bool.false_eq_true, if_false] at hp
    rcases findFree_some hp with ⟨k, _, _, hk3, hk4, _⟩
    rw [hk3]
    exact contains_eq_false.mp hk4
  · rw [Bool.not_eq_true] at h
    simp only [safe_move, h, Bool.not_false, if_true, Option.some.injEq] at hp
    rw [← hp]
    exact contains_eq_false.mp h

theorem safe_move_shape {ex : List (List Char)} {dst p : List Char}
    (hp : safe_move ex dst = some p) :
    p = dst ∨ ∃ k, 1 ≤ k ∧ k ≤ 9999 ∧ p = candName dst k := by
  by_cases h : ex.contains dst
  · simp only [safe_move, h, Bool.not_true, Bool.false_eq_true, if_false] at hp
    rcases findFree_some hp with ⟨k, hk1, hk2, hk3, _, _⟩
    exact Or.inr ⟨k, hk1, by omega, hk3⟩
  · rw [Bool.not_eq_true] at h
    simp only [safe_move, h, Bool.not_false, if_true, Option.some.injEq] at hp
    exact Or.inl hp.symm

theorem safe_move_of_not_mem {ex : List (List Char)} {dst : List Char}
    (h : dst ∉ ex) : safe_move ex dst = some dst := by
  have hc : ex.contains dst = false := contains_eq_false.mpr h
  simp only [safe_move, hc, Bool.not_false, if_true]

theorem runPhrases_keys (U : PyUni) (env : Env) (a : Nat) (fn : List Char) :
    ∀ (suf : List (List Char)) (j : Nat) (ex : List (List Char)),
      ((runPhrases U env a fn suf j ex).1).map (fun e => (e.1, e.2.1)) =
        (List.range' j suf.length).map (fun b => (a, b)) := by
  intro suf
  induction suf with
  | nil => intro j ex; rfl
  | cons ph rest ih =>
    intro j ex
    simp only [runPhrases, List.map_cons, List.length_cons, List.range'_succ]
    rw [ih (j + 1) _]

theorem runFonts_keys (U : PyUni) (env : Env) (phrases : List (List Char)) :
    ∀ (sufF : List (List Char)) (i : Nat) (ex : List (List Char)),
      ((runFonts U env phrases sufF i ex).2.1).map (fun e => (e.1, e.2.1)) =
        ((List.range' i sufF.length).filter (fun a => env.setupOk a)).flatMap
          (fun a => (List.range' 0 phrases.length).map (fun b => (a, b))) := by
  intro sufF
  induction sufF with
  | nil => intro i ex; rfl
  | cons f rest ih =>
    intro i ex
    simp only [runFonts, List.length_cons, List.range'_succ, List.filter_cons]
    by_cases hs : env.setupOk i
    · simp only [hs, if_true, List.flatMap_cons]
      rw [List.map_append, runPhrases_keys, ih]
    · simp only [hs, Bool.false_eq_true, if_false]
      rw [ih]

theorem runFonts_errs (U : PyUni) (env : Env) (phrases : List (List Char)) :
    ∀ (sufF : List (List Char)) (i : Nat) (ex : List (List Char)),
      (runFonts U env phrases sufF i ex).1 =
        (List.range' i sufF.length).filter (fun a => ! env.setupOk a) := by
  intro sufF
  induction sufF with
  | nil => intro i ex; rfl
  | cons f rest ih =>
    intro i ex
    simp only [runFonts, List.length_cons, List.range'_succ, List.filter_cons]
    by_cases hs : env.setupOk i
    · simp only [hs, Bool.not_true, Bool.false_eq_true, if_false, if_true]
      rw [ih]
    · simp only [hs, Bool.not_false, if_true, Bool.false_eq_true, if_false]
      rw [ih]

/-- The artifact paths of the successful pairs, in processing order. -/
def okPaths (prs : List (Nat × Nat × PairRes)) : List (List Char) :=
  prs.filterMap fun e => match e.2.2 with | .ok p => some p | .err => none

theorem runPhrases_artifacts (U : PyUni) (env : Env) (a : Nat) (fn : List Char) :
    ∀ (suf : List (List Char)) (j : Nat) (ex : List (List Char)),
      (okPaths (runPhrases U env a fn suf j ex).1).Nodup ∧
      (∀ p ∈ okPaths (runPhrases U env a fn suf j ex).1, p ∉ ex) ∧
      (∀ q ∈ ex, q ∈ (runPhrases U env a fn suf j ex).2) ∧
      (∀ p ∈ okPaths (runPhrases U env a fn suf j ex).1,
        p ∈ (runPhrases U env a fn suf j ex).2) := by
  intro suf
  induction suf with
  | nil =>
    intro j ex
    simp only [runPhrases, okPaths, List.filterMap_nil]
    exact ⟨List.nodup_nil, by simp, fun q hq => hq, by simp⟩
  | cons ph rest ih =>
    intro j ex
    simp only [runPhrases]
    by_cases hok : env.pipelineOk a j
    · rcases hmv : safe_move ex (outName U fn ph) with _ | art
      · -- relocation failure: err recorded, directory unchanged
        simp only [runPhrase, if_pos hok, hmv]
        obtain ⟨ih1, ih2, ih3, ih4⟩ := ih (j + 1) ex
        refine ⟨?_, ?_, ih3, ?_⟩
        · simpa only [okPaths, List.filterMap_cons] using ih1
        · intro p hp
          simp only [okPaths, List.filterMap_cons] at hp
          exact ih2 p hp
        · intro p hp
          simp only [okPaths, List.filterMap_cons] at hp
          exact ih4 p hp
      · -- success: artifact `art` added to the directory
        simp only [runPhrase, if_pos hok, hmv]
        obtain ⟨ih1, ih2, ih3, ih4⟩ := ih (j + 1) (art :: ex)
        have hart : art ∉ ex := safe_move_not_mem hmv
        refine ⟨?_, ?_, ?_, ?_⟩
        · simp only [okPaths, List.filterMap_cons]
          rw [List.nodup_cons]
          refine ⟨fun hmem => ?_, ih1⟩
          exact ih2 art hmem (List.mem_cons_self _ _)
        · intro p hp
          simp only [okPaths, List.filterMap_cons] at hp
          rcases List.mem_cons.mp hp with rfl | hp
          · exact hart
          · intro hmem
            exact ih2 p hp (List.mem_cons_of_mem _ hmem)
        · intro q hq
          exact ih3 q (List.mem_cons_of_mem _ hq)
        · intro p hp
          simp only [okPaths, List.filterMap_cons] at hp
          rcases List.mem_cons.mp hp with rfl | hp
          · exact ih3 p (List.mem_cons_self _ _)
          · exact ih4 p hp
    · -- pipeline failure before relocation: err recorded, directory unchanged
      simp only [runPhrase, if_neg hok]
      obtain ⟨ih1, ih2, ih3, ih4⟩ := ih (j + 1) ex
      refine ⟨?_, ?_, ih3, ?_⟩
      · simpa only [okPaths, List.filterMap_cons] using ih1
      · intro p hp
        simp only [okPaths, List.filterMap_cons] at hp
        exact ih2 p hp
      · intro p hp
        simp only [okPaths, List.filterMap_cons] at hp
        exact ih4 p hp

theorem runFonts_artifacts (U : PyUni) (env : Env) (phrases : List (List Char)) :
    ∀ (sufF : List (List Char)) (i : Nat) (ex : List (List Char)),
      (okPaths (runFonts U env phrases sufF i ex).2.1).Nodup ∧
      (∀ p ∈ okPaths (runFonts U env phrases sufF i ex).2.1, p ∉ ex) ∧
      (∀ q ∈ ex, q ∈ (runFonts U env phrases sufF i ex).2.2) ∧
      (∀ p ∈ okPaths (runFonts U env phrases sufF i ex).2.1,
        p ∈ (runFonts U env phrases sufF i ex).2.2) := by
  intro sufF
  induction sufF with
  | nil =>
    intro i ex
    simp only [runFonts, okPaths, List.filterMap_nil]
    exact ⟨List.nodup_nil, by simp, fun q hq => hq, by simp⟩
  | cons f rest ih =>
    intro i ex
    simp only [runFonts]
    by_cases hs : env.setupOk i
    · simp only [hs, if_true]
      obtain ⟨p1, p2, p3, p4⟩ := runPhrases_artifacts U env i f phrases 0 ex
      obtain ⟨ih1, ih2, ih3, ih4⟩ :=
        ih (i + 1) (runPhrases U env i f phrases 0 ex).2
      have hsplit : okPaths ((runPhrases U env i f phrases 0 ex).1 ++
          (runFonts U env phrases rest (i + 1) (runPhrases U env i f phrases 0 ex).2).2.1) =
          okPaths (runPhrases U env i f phrases 0 ex).1 ++
          okPaths (runFonts U env phrases rest (i + 1)
            (runPhrases U env i f phrases 0 ex).2).2.1 := by
        simp [okPaths, List.filterMap_append]
      refine ⟨?_, ?_, ?_, ?_⟩
      · rw [hsplit, List.nodup_append]
        refine ⟨p1, ih1, ?_⟩
        intro p hp hp2
        exact ih2 p hp2 (p4 p hp)
      · intro p hp
        rw [hsplit] at hp
        rcases List.mem_append.mp hp with hp | hp
        · exact p2 p hp
        · intro hmem
          exact ih2 p hp (p3 p hmem)
      · intro q hq
        exact ih3 q (p3 q hq)
      · intro p hp
        rw [hsplit] at hp
        rcases List.mem_append.mp hp with hp | hp
        · exact ih3 p (p4 p hp)
        · exact ih4 p hp
    · simp only [hs, Bool.false_eq_true, if_false]
      exact ih (i + 1) ex

theorem mem_zip_range' {α : Type} :
    ∀ {l : List α} {j b : Nat} {x : α},
      (b, x) ∈ (List.range' j l.length).zip l →
      j ≤ b ∧ b < j + l.length ∧ l[b - j]? = some x := by
  intro l
  induction l with
  | nil => intro j b x h; simp at h
  | cons y ys ih =>
    intro j b x h
    rw [List.length_cons, List.range'_succ, List.zip_cons_cons] at h
    rcases List.mem_cons.mp h with h | h
    · injection h with h1 h2
      subst h1
      subst h2
      refine ⟨le_refl _, by simp only [List.length_cons]; omega, ?_⟩
      simp
    · obtain ⟨hb1, hb2, hb3⟩ := ih h
      refine ⟨by omega, by simp only [List.length_cons]; omega, ?_⟩
      have he : b - j = (b - (j + 1)) + 1 := by omega
      rw [he, List.getElem?_cons_succ]
      exact hb3

theorem zip_range'_of_getElem {α : Type} :
    ∀ {l : List α} {k : Nat} {x : α}, l[k]? = some x →
      ∀ j, (j + k, x) ∈ (List.range' j l.length).zip l := by
  intro l
  induction l with
  | nil => intro k x h; simp at h
  | cons y ys ih =>
    intro k x h j
    rw [List.length_cons, List.range'_succ, List.zip_cons_cons]
    cases k with
    | zero =>
      rw [List.getElem?_cons_zero] at h
      injection h with h
      rw [h]
      exact List.mem_cons_self _ _
    | succ k' =>
      rw [List.getElem?_cons_succ] at h
      have := ih h (j + 1)
      refine List.mem_cons_of_mem _ ?_
      have he : j + (k' + 1) = (j + 1) + k' := by omega
      rw [he]
      exact this

theorem runPhrases_shape (U : PyUni) (env : Env) (a : Nat) (fn : List Char) :
    ∀ (suf : List (List Char)) (j : Nat) (ex : List (List Char)),
      ∀ e ∈ (runPhrases U env a fn suf j ex).1,
        e.1 = a ∧ ∃ ph, (e.2.1, ph) ∈ (List.range' j suf.length).zip suf ∧
          ∀ p, e.2.2 = .ok p →
            p = outName U fn ph ∨
            ∃ k, 1 ≤ k ∧ k ≤ 9999 ∧ p = candName (outName U fn ph) k := by
  intro suf
  induction suf with
  | nil => intro j ex e he; simp [runPhrases] at he
  | cons ph rest ih =>
    intro j ex e he
    rw [List.length_cons, List.range'_succ, List.zip_cons_cons]
    simp only [runPhrases] at he
    rcases List.mem_cons.mp he with rfl | he
    · refine ⟨rfl, ph, List.mem_cons_self _ _, ?_⟩
      intro p hp
      dsimp only at hp
      by_cases hok : env.pipelineOk a j
      · rw [runPhrase, if_pos hok] at hp
        rcases hmv : safe_move ex (outName U fn ph) with _ | q
        · rw [hmv] at hp
          dsimp only at hp
          exact absurd hp (by simp)
        · rw [hmv] at hp
          dsimp only at hp
          injection hp with hp
          rw [hp] at hmv
          exact safe_move_shape hmv
      · rw [runPhrase, if_neg hok] at hp
        exact absurd hp (by simp)
    · obtain ⟨he1, ph', hmem, hshape⟩ := ih (j + 1) _ e he
      exact ⟨he1, ph', List.mem_cons_of_mem _ hmem, hshape⟩

theorem runFonts_shape (U : PyUni) (env : Env) (phrases : List (List Char)) :
    ∀ (sufF : List (List Char)) (i : Nat) (ex : List (List Char)),
      ∀ e ∈ (runFonts U env phrases sufF i ex).2.1,
        ∃ fn, (e.1, fn) ∈ (List.range' i sufF.length).zip sufF ∧
          env.setupOk e.1 = true ∧
          ∃ ph, (e.2.1, ph) ∈ (List.range' 0 phrases.length).zip phrases ∧
            ∀ p, e.2.2 = .ok p →
              p = outName U fn ph ∨
              ∃ k, 1 ≤ k ∧ k ≤ 9999 ∧ p = candName (outName U fn ph) k := by
  intro sufF
  induction sufF with
  | nil => intro i ex e he; simp [runFonts] at he
  | cons f rest ih =>
    intro i ex e he
    rw [List.length_cons, List.range'_succ, List.zip_cons_cons]
    simp only [runFonts] at he
    by_cases hs : env.setupOk i
    · rw [if_pos hs] at he
      dsimp only at he
      rcases List.mem_append.mp he with he | he
      · obtain ⟨he1, ph, hmem, hshape⟩ := runPhrases_shape U env i f phrases 0 _ e he
        rw [he1]
        exact ⟨f, List.mem_cons_self _ _, hs, ph, hmem, hshape⟩
      · obtain ⟨fn, h1, h2, h3⟩ := ih (i + 1) _ e he
        exact ⟨fn, List.mem_cons_of_mem _ h1, h2, h3⟩
    · rw [if_neg hs] at he
      dsimp only at he
      obtain ⟨fn, h1, h2, h3⟩ := ih (i + 1) _ e he
      exact ⟨fn, List.mem_cons_of_mem _ h1, h2, h3⟩

/-- The closed form of one font's inner loop when no name collisions can
occur: pair `(a, b)` succeeds iff its pipeline step does, with artifact
exactly `outName U fn ph` (no disambiguation). -/
def pairsFor (U : PyUni) (env : Env) (a : Nat) (fn : List Char) (j : Nat)
    (suf : List (List Char)) : List (Nat × Nat × PairRes) :=
  ((List.range' j suf.length).zip suf).map
    fun e => (a, e.1, if env.pipelineOk a e.1 then PairRes.ok (outName U fn e.2) else .err)

theorem pairsFor_cons (U : PyUni) (env : Env) (a : Nat) (fn : List Char) (j : Nat)
    (ph : List Char) (rest : List (List Char)) :
    pairsFor U env a fn j (ph :: rest) =
      (a, j, if env.pipelineOk a j then PairRes.ok (outName U fn ph) else .err)
        :: pairsFor U env a fn (j + 1) rest := by
  simp [pairsFor, List.range'_succ]

theorem zip_range'_pairwise_fst {α : Type} :
    ∀ (l : List α) (j : Nat),
      ((List.range' j l.length).zip l).Pairwise (fun e e' => e.1 < e'.1) := by
  intro l
  induction l with
  | nil => intro j; simp
  | cons y ys ih =>
    intro j
    rw [List.length_cons, List.range'_succ, List.zip_cons_cons]
    rw [List.pairwise_cons]
    refine ⟨?_, ih (j + 1)⟩
    intro e he
    have := (mem_zip_range' (l := ys) (j := j + 1) (b := e.1) (x := e.2))
      (by simpa using he)
    simp only
    omega

theorem runPhrases_closed (U : PyUni) (env : Env) (a : Nat) (fn : List Char) :
    ∀ (suf : List (List Char)) (j : Nat) (ex : List (List Char)),
      (∀ b ph, (b, ph) ∈ (List.range' j suf.length).zip suf → outName U fn ph ∉ ex) →
      ((List.range' j suf.length).zip suf).Pairwise
        (fun e e' => outName U fn e.2 ≠ outName U fn e'.2) →
      (runPhrases U env a fn suf j ex).1 = pairsFor U env a fn j suf ∧
      (∀ q, q ∈ (runPhrases U env a fn suf j ex).2 →
        q ∈ ex ∨ ∃ b ph, (b, ph) ∈ (List.range' j suf.length).zip suf ∧
          q = outName U fn ph) := by
  intro suf
  induction suf with
  | nil =>
    intro j ex hfresh hpw
    exact ⟨rfl, fun q hq => Or.inl hq⟩
  | cons ph rest ih =>
    intro j ex hfresh hpw
    rw [List.length_cons, List.range'_succ, List.zip_cons_cons] at hfresh hpw ⊢
    rw [List.pairwise_cons] at hpw
    obtain ⟨hpw1, hpw2⟩ := hpw
    have hdst : outName U fn ph ∉ ex :=
      hfresh j ph (List.mem_cons_self _ _)
    simp only [runPhrases]
    rw [pairsFor_cons]
    by_cases hok : env.pipelineOk a j
    · rw [runPhrase, if_pos hok, safe_move_of_not_mem hdst]
      dsimp only
      have hfresh' : ∀ b ph', (b, ph') ∈ (List.range' (j + 1) rest.length).zip rest →
          outName U fn ph' ∉ (outName U fn ph :: ex) := by
        intro b ph' hb hmem
        rcases List.mem_cons.mp hmem with he | he
        · exact hpw1 (b, ph') hb he.symm
        · exact hfresh b ph' (List.mem_cons_of_mem _ hb) he
      obtain ⟨ihA, ihB⟩ := ih (j + 1) (outName U fn ph :: ex) hfresh' hpw2
      constructor
      · rw [ihA, if_pos hok]
      · intro q hq
        rcases ihB q hq with hq2 | ⟨b, ph', hb, he⟩
        · rcases List.mem_cons.mp hq2 with he | he
          · exact Or.inr ⟨j, ph, List.mem_cons_self _ _, he⟩
          · exact Or.inl he
        · exact Or.inr ⟨b, ph', List.mem_cons_of_mem _ hb, he⟩
    · rw [runPhrase, if_neg hok]
      dsimp only
      have hfresh' : ∀ b ph', (b, ph') ∈ (List.range' (j + 1) rest.length).zip rest →
          outName U fn ph' ∉ ex :=
        fun b ph' hb => hfresh b ph' (List.mem_cons_of_mem _ hb)
      obtain ⟨ihA, ihB⟩ := ih (j + 1) ex hfresh' hpw2
      constructor
      · rw [ihA, if_neg hok]
      · intro q hq
        rcases ihB q hq with hq2 | ⟨b, ph', hb, he⟩
        · exact Or.inl hq2
        · exact Or.inr ⟨b, ph', List.mem_cons_of_mem _ hb, he⟩

/-- Closed form of an entire run when no name collisions can occur. -/
def runFor (U : PyUni) (env : Env) (phrases : List (List Char)) (i : Nat)
    (sufF : List (List Char)) : List (Nat × Nat × PairRes) :=
  (((List.range' i sufF.length).zip sufF).filter (fun e => env.setupOk e.1)).flatMap
    fun e => pairsFor U env e.1 e.2 0 phrases

theorem runFor_cons (U : PyUni) (env : Env) (phrases : List (List Char)) (i : Nat)
    (f : List Char) (rest : List (List Char)) :
    runFor U env phrases i (f :: rest) =
      (if env.setupOk i then pairsFor U env i f 0 phrases else []) ++
        runFor U env phrases (i + 1) rest := by
  simp only [runFor, List.length_cons, List.range'_succ, List.zip_cons_cons,
    List.filter_cons]
  by_cases hs : env.setupOk i
  · rw [if_pos hs, if_pos hs, List.flatMap_cons]
  · rw [if_neg hs]
    simp only [hs, Bool.false_eq_true, if_false, List.nil_append]

theorem runFonts_closed (U : PyUni) (env : Env) (phrases : List (List Char)) :
    ∀ (sufF : List (List Char)) (i : Nat) (ex : List (List Char)),
      (∀ a fn b ph, (a, fn) ∈ (List.range' i sufF.length).zip sufF →
        (b, ph) ∈ (List.range' 0 phrases.length).zip phrases →
        outName U fn ph ∉ ex) →
      (∀ a fn b ph a' fn' b' ph',
        (a, fn) ∈ (List.range' i sufF.length).zip sufF →
        (b, ph) ∈ (List.range' 0 phrases.length).zip phrases →
        (a', fn') ∈ (List.range' i sufF.length).zip sufF →
        (b', ph') ∈ (List.range' 0 phrases.length).zip phrases →
        ¬(a = a' ∧ b = b') → outName U fn ph ≠ outName U fn' ph') →
      (runFonts U env phrases sufF i ex).2.1 = runFor U env phrases i sufF ∧
      (∀ q, q ∈ (runFonts U env phrases sufF i ex).2.2 →
        q ∈ ex ∨ ∃ a fn b ph, (a, fn) ∈ (List.range' i sufF.length).zip sufF ∧
          (b, ph) ∈ (List.range' 0 phrases.length).zip phrases ∧
          q = outName U fn ph) := by
  intro sufF
  induction sufF with
  | nil =>
    intro i ex h1 h2
    exact ⟨rfl, fun q hq => Or.inl hq⟩
  | cons f rest ih =>
    intro i ex h1 h2
    rw [List.length_cons, List.range'_succ, List.zip_cons_cons] at h1 h2 ⊢
    rw [runFor_cons]
    have hmemf : ∀ (a : Nat) (fn : List Char),
        (a, fn) ∈ (List.range' (i + 1) rest.length).zip rest → i + 1 ≤ a :=
      fun a fn ha => (mem_zip_range' ha).1
    simp only [runFonts]
    by_cases hs : env.setupOk i
    · rw [if_pos hs]
      dsimp only
      have hph_fresh : ∀ b ph, (b, ph) ∈ (List.range' 0 phrases.length).zip phrases →
          outName U f ph ∉ ex :=
        fun b ph hb => h1 i f b ph (List.mem_cons_self _ _) hb
      have hph_pw : ((List.range' 0 phrases.length).zip phrases).Pairwise
          (fun e e' => outName U f e.2 ≠ outName U f e'.2) := by
        refine (zip_range'_pairwise_fst phrases 0).imp_of_mem ?_
        intro e e' he he' hlt
        exact h2 i f e.1 e.2 i f e'.1 e'.2 (List.mem_cons_self _ _) he
          (List.mem_cons_self _ _) he' (by omega)
      obtain ⟨pA, pB⟩ := runPhrases_closed U env i f phrases 0 ex hph_fresh hph_pw
      have h1' : ∀ a fn b ph, (a, fn) ∈ (List.range' (i + 1) rest.length).zip rest →
          (b, ph) ∈ (List.range' 0 phrases.length).zip phrases →
          outName U fn ph ∉ (runPhrases U env i f phrases 0 ex).2 := by
        intro a fn b ph ha hb hmem
        rcases pB _ hmem with hmem2 | ⟨b', ph', hb', he⟩
        · exact h1 a fn b ph (List.mem_cons_of_mem _ ha) hb hmem2
        · refine h2 a fn b ph i f b' ph' (List.mem_cons_of_mem _ ha) hb
            (List.mem_cons_self _ _) hb' ?_ he
          have := hmemf a fn ha
          omega
      have h2' : ∀ a fn b ph a' fn' b' ph',
          (a, fn) ∈ (List.range' (i + 1) rest.length).zip rest →
          (b, ph) ∈ (List.range' 0 phrases.length).zip phrases →
          (a', fn') ∈ (List.range' (i + 1) rest.length).zip rest →
          (b', ph') ∈ (List.range' 0 phrases.length).zip phrases →
          ¬(a = a' ∧ b = b') → outName U fn ph ≠ outName U fn' ph' :=
        fun a fn b ph a' fn' b' ph' ha hb ha' hb' hne =>
          h2 a fn b ph a' fn' b' ph' (List.mem_cons_of_mem _ ha) hb
            (List.mem_cons_of_mem _ ha') hb' hne
      obtain ⟨ihA, ihB⟩ := ih (i + 1) _ h1' h2'
      constructor
      · rw [ihA, pA, if_pos hs]
      · intro q hq
        rcases ihB q hq with hq2 | ⟨a, fn, b, ph, ha, hb, he⟩
        · rcases pB q hq2 with hq3 | ⟨b, ph, hb, he⟩
          · exact Or.inl hq3
          · exact Or.inr ⟨i, f, b, ph, List.mem_cons_self _ _, hb, he⟩
        · exact Or.inr ⟨a, fn, b, ph, List.mem_cons_of_mem _ ha, hb, he⟩
    · rw [if_neg hs]
      dsimp only
      have h1' : ∀ a fn b ph, (a, fn) ∈ (List.range' (i + 1) rest.length).zip rest →
          (b, ph) ∈ (List.range' 0 phrases.length).zip phrases →
          outName U fn ph ∉ ex :=
        fun a fn b ph ha hb => h1 a fn b ph (List.mem_cons_of_mem _ ha) hb
      have h2' : ∀ a fn b ph a' fn' b' ph',
          (a, fn) ∈ (List.range' (i + 1) rest.length).zip rest →
          (b, ph) ∈ (List.range' 0 phrases.length).zip phrases →
          (a', fn') ∈ (List.range' (i + 1) rest.length).zip rest →
          (b', ph') ∈ (List.range' 0 phrases.length).zip phrases →
          ¬(a = a' ∧ b = b') → outName U fn ph ≠ outName U fn' ph' :=
        fun a fn b ph a' fn' b' ph' ha hb ha' hb' hne =>
          h2 a fn b ph a' fn' b' ph' (List.mem_cons_of_mem _ ha) hb
            (List.mem_cons_of_mem _ ha') hb' hne
      obtain ⟨ihA, ihB⟩ := ih (i + 1) ex h1' h2'
      constructor
      · rw [ihA]
        simp only [hs, Bool.false_eq_true, if_false, List.nil_append]
      · intro q hq
        rcases ihB q hq with hq2 | ⟨a, fn, b, ph, ha, hb, he⟩
        · exact Or.inl hq2
        · exact Or.inr ⟨a, fn, b, ph, List.mem_cons_of_mem _ ha, hb, he⟩

theorem runMain_aborted {U : PyUni} {pf : Option (List (List Char))}
    {fonts : List (List Char)} {env : Env} {outInit : List (List Char)}
    (hp : load_phrases U pf = []) :
    runMain U pf fonts env outInit =
      { aborted := true, crashed := false, fontErrors := [], pairs := [],
        existing := outInit } := by
  have hp' : (load_phrases U pf).isEmpty = true := List.isEmpty_iff.mpr hp
  simp only [runMain, hp', if_true]

theorem runMain_crashed {U : PyUni} {pf : Option (List (List Char))}
    {fonts : List (List Char)} {env : Env} {outInit : List (List Char)}
    (hp : load_phrases U pf ≠ []) (hd : env.driverOk = false) :
    runMain U pf fonts env outInit =
      { aborted := false, crashed := true, fontErrors := [], pairs := [],
        existing := outInit } := by
  have hp' : (load_phrases U pf).isEmpty = false := List.isEmpty_eq_false.mpr hp
  simp only [runMain, hp', Bool.false_eq_true, if_false, hd, Bool.not_false, if_true]

theorem runMain_normal {U : PyUni} {pf : Option (List (List Char))}
    {fonts : List (List Char)} {env : Env} {outInit : List (List Char)}
    (hp : load_phrases U pf ≠ []) (hd : env.driverOk = true) :
    runMain U pf fonts env outInit =
      { aborted := false, crashed := false,
        fontErrors := (runFonts U env (load_phrases U pf) fonts 0 outInit).1,
        pairs := (runFonts U env (load_phrases U pf) fonts 0 outInit).2.1,
        existing := (runFonts U env (load_phrases U pf) fonts 0 outInit).2.2 } := by
  have hp' : (load_phrases U pf).isEmpty = false := List.isEmpty_eq_false.mpr hp
  simp only [runMain, hp', Bool.false_eq_true, if_false, hd, Bool.not_true]

/-- Claim C7 (amended): the run aborts before any processing if and only
if the phrase load yields nothing (missing file or no usable lines).  An
empty font list is not an abort: the browser is still created and the run
completes normally with zero pairs (see the counterexample).  Otherwise,
provided the browser session can be created at all (whose failure is the
one fatal non-abort exit), the run returns normally having attempted
every phrase of every font whose setup succeeded, recording exactly the
setup-failed fonts as font errors; per-item failures never terminate the
run. -/
theorem claim_C7_run_abort (U : PyUni) (pf : Option (List (List Char)))
    (fonts : List (List Char)) (env : Env) (outInit : List (List Char)) :
    ((runMain U pf fonts env outInit).aborted = true ↔ load_phrases U pf = []) ∧
    ((runMain U pf fonts env outInit).crashed = true ↔
      (load_phrases U pf ≠ [] ∧ env.driverOk = false)) ∧
    (load_phrases U pf ≠ [] → env.driverOk = true →
      ((runMain U pf fonts env outInit).pairs).map (fun e => (e.1, e.2.1)) =
        ((List.range' 0 fonts.length).filter (fun a => env.setupOk a)).flatMap
          (fun a => (List.range' 0 (load_phrases U pf).length).map (fun b => (a, b))) ∧
      (runMain U pf fonts env outInit).fontErrors =
        (List.range' 0 fonts.length).filter (fun a => ! env.setupOk a)) := by
  by_cases hp : load_phrases U pf = []
  · rw [runMain_aborted hp]
    refine ⟨by simp [hp], by simp [hp], fun h => absurd hp h⟩
  · by_cases hd : env.driverOk
    · rw [runMain_normal hp hd]
      refine ⟨by simp [hp], by simp [hd], fun _ _ => ?_⟩
      exact ⟨runFonts_keys U env _ fonts 0 outInit, runFonts_errs U env _ fonts 0 outInit⟩
    · rw [Bool.not_eq_true] at hd
      rw [runMain_crashed hp hd]
      refine ⟨by simp [hp], by simp [hp, hd], fun _ hd' => ?_⟩
      rw [hd'] at hd
      exact absurd hd (by simp)

/-- An environment in which every collaborator step succeeds. -/
def envAllOk : Env := ⟨true, fun _ => true, fun _ _ => true⟩

/-- Claim C7, counterexample to the claim as stated: with a valid phrase
list and an empty font list the run does not abort — it proceeds
normally (browser created and torn down) and attempts zero pairs,
whereas the claim requires an abort whenever the font list is empty. -/
theorem claim_C7_counterexample :
    (runMain pyUni0 (some ["p".data]) [] envAllOk []).aborted = false ∧
    (runMain pyUni0 (some ["p".data]) [] envAllOk []).crashed = false ∧
    (runMain pyUni0 (some ["p".data]) [] envAllOk []).pairs = [] := by decide

theorem claim_C7_witness :
    ((runMain pyUni0 (some ["p".data, "q".data]) ["A.ttf".data] envAllOk []).pairs).map
        (fun e => (e.1, e.2.1)) =
      ((List.range' 0 (["A.ttf".data] : List (List Char)).length).filter
          (fun a => envAllOk.setupOk a)).flatMap
        (fun a => (List.range' 0
          (load_phrases pyUni0 (some ["p".data, "q".data])).length).map
            (fun b => (a, b))) ∧
    (runMain pyUni0 (some ["p".data, "q".data]) ["A.ttf".data] envAllOk []).fontErrors =
      (List.range' 0 (["A.ttf".data] : List (List Char)).length).filter
        (fun a => ! envAllOk.setupOk a) :=
  (claim_C7_run_abort pyUni0 (some ["p".data, "q".data]) ["A.ttf".data] envAllOk
    []).2.2 (by decide) rfl

theorem nodup_index_pairs (la lb : List Nat) (hla : la.Nodup) (hlb : lb.Nodup) :
    (la.flatMap (fun a => lb.map (fun b => (a, b)))).Nodup := by
  induction la with
  | nil => simp
  | cons a rest ih =>
    rw [List.nodup_cons] at hla
    rw [List.flatMap_cons, List.nodup_append]
    refine ⟨hlb.map (fun b b' h => ?_), ih hla.2, ?_⟩
    · exact ((Prod.mk.injEq _ _ _ _).mp h).2
    · intro x hx1 hx2
      rcases List.mem_map.mp hx1 with ⟨b, _, hb2⟩
      rcases List.mem_flatMap.mp hx2 with ⟨a', ha', hxa'⟩
      rcases List.mem_map.mp hxa' with ⟨b', _, hb'2⟩
      rw [← hb2] at hb'2
      have : a' = a := ((Prod.mk.injEq _ _ _ _).mp hb'2).1
      rw [this] at ha'
      exact hla.1 ha'

theorem mem_runFor {U : PyUni} {env : Env} {phrases : List (List Char)} {i : Nat}
    {sufF : List (List Char)} {a b : Nat} {r : PairRes} :
    (a, b, r) ∈ runFor U env phrases i sufF ↔
      ∃ fn ph, (a, fn) ∈ (List.range' i sufF.length).zip sufF ∧
        env.setupOk a = true ∧
        (b, ph) ∈ (List.range' 0 phrases.length).zip phrases ∧
        r = (if env.pipelineOk a b then PairRes.ok (outName U fn ph) else .err) := by
  unfold runFor
  rw [List.mem_flatMap]
  constructor
  · rintro ⟨e, he1, he2⟩
    rw [List.mem_filter] at he1
    unfold pairsFor at he2
    rcases List.mem_map.mp he2 with ⟨e', he'1, he'2⟩
    have ha : e.1 = a := ((Prod.mk.injEq _ _ _ _).mp he'2).1
    have hrest := ((Prod.mk.injEq _ _ _ _).mp he'2).2
    have hb : e'.1 = b := ((Prod.mk.injEq _ _ _ _).mp hrest).1
    have hr := ((Prod.mk.injEq _ _ _ _).mp hrest).2
    refine ⟨e.2, e'.2, ?_, ?_, ?_, ?_⟩
    · rw [← ha]; exact he1.1
    · rw [← ha]; exact he1.2
    · rw [← hb]; exact he'1
    · rw [← hr, ha, hb]
  · rintro ⟨fn, ph, h1, h2, h3, h4⟩
    refine ⟨(a, fn), List.mem_filter.mpr ⟨h1, h2⟩, ?_⟩
    unfold pairsFor
    rw [List.mem_map]
    refine ⟨(b, ph), h3, ?_⟩
    rw [h4]

/-- Environment in which exactly the pipeline step of pair `(i0, j0)`
fails and everything else succeeds. -/
def scenarioEnv (i0 j0 : Nat) : Env :=
  ⟨true, fun _ => true, fun a b => !(a == i0 && b == j0)⟩

/-- Claim C2 (amended): a failed (font, phrase) pair produces no
artifact and its (font, phrase)-identified failure is the pair's only
recorded outcome; every successful pair produces exactly one artifact,
all artifact paths are pairwise distinct and none clobbers a
pre-existing output file; a per-font setup failure records exactly that
font and no pair of it is attempted; and — provided the pairs' target
names are pairwise distinct and absent from the output directory —
changing one pair's pipeline outcome leaves every other pair's recorded
outcome and artifact unchanged (without that proviso a sibling's
disambiguated path can shift; see the counterexample).  In the 2×3
scenario with exactly one failing pair there are exactly 5 artifacts and
1 failure. -/
theorem claim_C2_isolation (U : PyUni) (pf : Option (List (List Char)))
    (fonts : List (List Char)) (env : Env) (outInit : List (List Char)) :
    (∀ a b p, (a, b, PairRes.err) ∈ (runMain U pf fonts env outInit).pairs →
      (a, b, PairRes.ok p) ∉ (runMain U pf fonts env outInit).pairs) ∧
    (okPaths (runMain U pf fonts env outInit).pairs).Nodup ∧
    (∀ p ∈ okPaths (runMain U pf fonts env outInit).pairs, p ∉ outInit) ∧
    (∀ a b r, (a, b, r) ∈ (runMain U pf fonts env outInit).pairs →
      env.setupOk a = true) ∧
    (∀ (env' : Env) (i0 j0 : Nat),
      env.driverOk = env'.driverOk → env.setupOk = env'.setupOk →
      (∀ a b, ¬(a = i0 ∧ b = j0) → env.pipelineOk a b = env'.pipelineOk a b) →
      (∀ a fn b ph, (a, fn) ∈ (List.range' 0 fonts.length).zip fonts →
        (b, ph) ∈ (List.range' 0 (load_phrases U pf).length).zip (load_phrases U pf) →
        outName U fn ph ∉ outInit) →
      (∀ a fn b ph a' fn' b' ph',
        (a, fn) ∈ (List.range' 0 fonts.length).zip fonts →
        (b, ph) ∈ (List.range' 0 (load_phrases U pf).length).zip (load_phrases U pf) →
        (a', fn') ∈ (List.range' 0 fonts.length).zip fonts →
        (b', ph') ∈ (List.range' 0 (load_phrases U pf).length).zip (load_phrases U pf) →
        ¬(a = a' ∧ b = b') → outName U fn ph ≠ outName U fn' ph') →
      ∀ a b r, ¬(a = i0 ∧ b = j0) →
        ((a, b, r) ∈ (runMain U pf fonts env outInit).pairs ↔
         (a, b, r) ∈ (runMain U pf fonts env' outInit).pairs)) ∧
    (∀ i0 j0, i0 < 2 → j0 < 3 →
      (okPaths (runMain pyUni0 (some ["p".data, "q".data, "r".data])
        ["A.ttf".data, "B.ttf".data] (scenarioEnv i0 j0) []).pairs).length = 5 ∧
      ((runMain pyUni0 (some ["p".data, "q".data, "r".data])
        ["A.ttf".data, "B.ttf".data] (scenarioEnv i0 j0) []).pairs.filter
          (fun e => e.2.2 == PairRes.err)).length = 1) := by
  have hscen : ∀ i0 j0, i0 < 2 → j0 < 3 →
      (okPaths (runMain pyUni0 (some ["p".data, "q".data, "r".data])
        ["A.ttf".data, "B.ttf".data] (scenarioEnv i0 j0) []).pairs).length = 5 ∧
      ((runMain pyUni0 (some ["p".data, "q".data, "r".data])
        ["A.ttf".data, "B.ttf".data] (scenarioEnv i0 j0) []).pairs.filter
          (fun e => e.2.2 == PairRes.err)).length = 1 := by
    intro i0 j0 h1 h2
    interval_cases i0 <;> interval_cases j0 <;> exact ⟨by decide, by decide⟩
  refine ⟨?_, ?_, ?_, ?_, ?_, hscen⟩
  · intro a b p herr hok
    by_cases hp : load_phrases U pf = []
    · rw [runMain_aborted hp] at herr
      simp at herr
    by_cases hd : env.driverOk
    · rw [runMain_normal hp hd] at herr hok
      dsimp only at herr hok
      have hkeys := runFonts_keys U env (load_phrases U pf) fonts 0 outInit
      have hnd : (((runFonts U env (load_phrases U pf) fonts 0 outInit).2.1).map
          (fun e => (e.1, e.2.1))).Nodup := by
        rw [hkeys]
        exact nodup_index_pairs _ _
          ((List.nodup_range' 0 fonts.length).filter _) (List.nodup_range' 0 _)
      have heq := List.inj_on_of_nodup_map hnd herr hok rfl
      simp at heq
    · rw [Bool.not_eq_true] at hd
      rw [runMain_crashed hp hd] at herr
      simp at herr
  · by_cases hp : load_phrases U pf = []
    · rw [runMain_aborted hp]
      simp [okPaths]
    by_cases hd : env.driverOk
    · rw [runMain_normal hp hd]
      exact (runFonts_artifacts U env (load_phrases U pf) fonts 0 outInit).1
    · rw [Bool.not_eq_true] at hd
      rw [runMain_crashed hp hd]
      simp [okPaths]
  · by_cases hp : load_phrases U pf = []
    · rw [runMain_aborted hp]
      simp [okPaths]
    by_cases hd : env.driverOk
    · rw [runMain_normal hp hd]
      exact (runFonts_artifacts U env (load_phrases U pf) fonts 0 outInit).2.1
    · rw [Bool.not_eq_true] at hd
      rw [runMain_crashed hp hd]
      simp [okPaths]
  · intro a b r hmem
    by_cases hp : load_phrases U pf = []
    · rw [runMain_aborted hp] at hmem
      simp at hmem
    by_cases hd : env.driverOk
    · rw [runMain_normal hp hd] at hmem
      dsimp only at hmem
      have hkeys := runFonts_keys U env (load_phrases U pf) fonts 0 outInit
      have hkmem : (a, b) ∈ (((runFonts U env (load_phrases U pf) fonts 0
          outInit).2.1).map (fun e => (e.1, e.2.1))) :=
        List.mem_map.mpr ⟨(a, b, r), hmem, rfl⟩
      rw [hkeys] at hkmem
      rcases List.mem_flatMap.mp hkmem with ⟨a', ha', hab⟩
      rcases List.mem_map.mp hab with ⟨b', _, hb'2⟩
      have haa : a' = a := ((Prod.mk.injEq _ _ _ _).mp hb'2).1
      rw [haa] at ha'
      exact (List.mem_filter.mp ha').2
    · rw [Bool.not_eq_true] at hd
      rw [runMain_crashed hp hd] at hmem
      simp at hmem
  · intro env' i0 j0 hdrv hsetup hpipe hfresh1 hfresh2 a b r hne
    by_cases hp : load_phrases U pf = []
    · rw [runMain_aborted hp, runMain_aborted hp]
    by_cases hd : env.driverOk
    · have hd' : env'.driverOk = true := by rw [← hdrv]; exact hd
      rw [runMain_normal hp hd, runMain_normal hp hd']
      dsimp only
      rw [(runFonts_closed U env (load_phrases U pf) fonts 0 outInit hfresh1 hfresh2).1,
        (runFonts_closed U env' (load_phrases U pf) fonts 0 outInit hfresh1 hfresh2).1]
      rw [mem_runFor, mem_runFor]
      constructor
      · rintro ⟨fn, ph, h1, h2, h3, h4⟩
        refine ⟨fn, ph, h1, by rw [← hsetup]; exact h2, h3, ?_⟩
        rw [h4, hpipe a b hne]
      · rintro ⟨fn, ph, h1, h2, h3, h4⟩
        refine ⟨fn, ph, h1, by rw [hsetup]; exact h2, h3, ?_⟩
        rw [h4, hpipe a b hne]
    · rw [Bool.not_eq_true] at hd
      have hd' : env'.driverOk = false := by rw [← hdrv]; exact hd
      rw [runMain_crashed hp hd, runMain_crashed hp hd']

/-- Environment failing only the pipeline step of pair `(0, 0)`. -/
def envC2B : Env := ⟨true, fun _ => true, fun a b => !(a == 0 && b == 0)⟩

theorem contains_eq_true {l : List (List Char)} {a : List Char} :
    l.contains a = true ↔ a ∈ l := by
  constructor
  · intro h
    by_contra hmem
    rw [contains_eq_false.mpr hmem] at h
    exact absurd h (by simp)
  · intro h
    cases hc : l.contains a with
    | true => rfl
    | false => exact absurd h (contains_eq_false.mp hc)

theorem toDigitsCore_length_le (b : Nat) :
    ∀ (fuel n : Nat) (ds : List Char),
      ds.length ≤ (Nat.toDigitsCore b fuel n ds).length := by
  intro fuel
  induction fuel with
  | zero => intro n ds; exact le_refl _
  | succ f ih =>
    intro n ds
    simp only [Nat.toDigitsCore]
    split
    · simp
    · exact le_trans (by simp) (ih (n / b) (Nat.digitChar (n % b) :: ds))

theorem toDigits_length_pos (b n : Nat) : 0 < (Nat.toDigits b n).length := by
  unfold Nat.toDigits
  simp only [Nat.toDigitsCore]
  split
  · simp
  · calc 0 < (Nat.digitChar (n % b) :: ([] : List Char)).length := by simp
      _ ≤ _ := toDigitsCore_length_le b n (n / b) _

/-- An output directory already holding every disambiguation candidate
`f__x_01.stl` … `f__x_9999.stl` (but not `f__x.stl` itself). -/
def exhaustInit : List (List Char) := (List.range' 1 9999).map (candName "f__x.stl".data)

/-- In a run over font `f.ttf` and phrases `"x"`, `"x_"` (both
sanitizing to stem `x`) where every collaborator step succeeds, pair
(0,1) ends in `err` whenever relocating into the directory left by pair
(0,0)'s success fails. -/
theorem exhaust_runA_mem (E : List (List Char))
    (hsm1 : safe_move E "f__x.stl".data = some "f__x.stl".data)
    (hsm2 : safe_move ("f__x.stl".data :: E) "f__x.stl".data = none) :
    (0, 1, PairRes.err) ∈
      (runMain pyUni0 (some ["x".data, "x_".data]) ["f.ttf".data] envAllOk E).pairs := by
  have hphrases : load_phrases pyUni0 (some ["x".data, "x_".data])
      = ["x".data, "x_".data] := by decide
  have hn1 : outName pyUni0 "f.ttf".data "x".data = "f__x.stl".data := by decide
  have hn2 : outName pyUni0 "f.ttf".data "x_".data = "f__x.stl".data := by decide
  rw [runMain_normal (by decide) rfl]
  dsimp only
  rw [hphrases]
  have hsA : envAllOk.setupOk 0 = true := rfl
  have hpA0 : envAllOk.pipelineOk 0 0 = true := rfl
  have hpA1 : envAllOk.pipelineOk 0 (0 + 1) = true := rfl
  simp only [runFonts, hsA, if_true, runPhrases, runPhrase, hpA0, hpA1,
    hn1, hn2, hsm1, hsm2]
  simp

/-- In the same run but with pair (0,0)'s pipeline step failing, pair
(0,1) succeeds with the undisambiguated name whenever `f__x.stl` is free
in the initial directory. -/
theorem exhaust_runB_mem (E : List (List Char))
    (hsm1 : safe_move E "f__x.stl".data = some "f__x.stl".data) :
    (0, 1, PairRes.ok "f__x.stl".data) ∈
      (runMain pyUni0 (some ["x".data, "x_".data]) ["f.ttf".data] envC2B E).pairs := by
  have hphrases : load_phrases pyUni0 (some ["x".data, "x_".data])
      = ["x".data, "x_".data] := by decide
  have hn1 : outName pyUni0 "f.ttf".data "x".data = "f__x.stl".data := by decide
  have hn2 : outName pyUni0 "f.ttf".data "x_".data = "f__x.stl".data := by decide
  rw [runMain_normal (by decide) rfl]
  dsimp only
  rw [hphrases]
  have hsB : envC2B.setupOk 0 = true := rfl
  have hpB0 : envC2B.pipelineOk 0 0 = false := rfl
  have hpB1 : envC2B.pipelineOk 0 (0 + 1) = true := rfl
  have hsm1' : safe_move E ['f', '_', '_', 'x', '.', 's', 't', 'l']
      = some ['f', '_', '_', 'x', '.', 's', 't', 'l'] := hsm1
  simp only [runFonts, hsB, if_true, runPhrases, runPhrase, hpB0, hpB1,
    Bool.false_eq_true, if_false, hn1, hn2, hsm1, hsm1']
  simp

/-- Claim C2, counterexample to the claim as stated: phrases `"x"` and
`"x_"` sanitize to the same stem, so both pairs target `f__x.stl`.
First triple: when pair (0,0) succeeds, pair (0,1)'s artifact is the
disambiguated `f__x_01.stl`; when pair (0,0) fails, pair (0,1)'s
artifact is `f__x.stl` — one pair's failure changed another pair's
artifact.  Second pair of facts: with all 9999 candidates pre-existing,
pair (0,0)'s failure even flips pair (0,1)'s outcome — from `err`
(`safe_move` exhaustion, since (0,0)'s success occupied `f__x.stl`) to
`ok f__x.stl` — contradicting "leaves the processing and artifacts of
every other pair unchanged". -/
theorem claim_C2_counterexample :
    ((0, 1, PairRes.ok "f__x_01.stl".data) ∈
      (runMain pyUni0 (some ["x".data, "x_".data]) ["f.ttf".data] envAllOk []).pairs ∧
     (0, 1, PairRes.ok "f__x.stl".data) ∈
      (runMain pyUni0 (some ["x".data, "x_".data]) ["f.ttf".data] envC2B []).pairs ∧
     ("f__x_01.stl".data : List Char) ≠ "f__x.stl".data) ∧
    ((0, 1, PairRes.err) ∈
      (runMain pyUni0 (some ["x".data, "x_".data]) ["f.ttf".data] envAllOk
        exhaustInit).pairs ∧
     (0, 1, PairRes.ok "f__x.stl".data) ∈
      (runMain pyUni0 (some ["x".data, "x_".data]) ["f.ttf".data] envC2B
        exhaustInit).pairs) := by
  have hsuf : pySuffix "f__x.stl".data = ".stl".data := by decide
  have hstem : pyStem "f__x.stl".data = "f__x".data := by decide
  have hlen : ∀ k, 10 ≤ (candName "f__x.stl".data k).length := by
    intro k
    unfold candName
    rw [hstem, hsuf]
    by_cases hk : k < 10
    · rw [if_pos hk]
      simp [List.length_append]
    · rw [if_neg hk]
      have h1 := toDigits_length_pos 10 k
      simp [List.length_append]
      omega
  have hdst_ne : ∀ k, candName "f__x.stl".data k ≠ "f__x.stl".data := by
    intro k h
    have hl := congrArg List.length h
    rw [show ("f__x.stl".data).length = 8 from by decide] at hl
    have h10 := hlen k
    omega
  have hdst_notin : "f__x.stl".data ∉ exhaustInit := by
    intro hmem
    rcases List.mem_map.mp hmem with ⟨k, _, hk2⟩
    exact hdst_ne k hk2
  have hmem_cand : ∀ k, 1 ≤ k → k < 1 + 9999 →
      candName "f__x.stl".data k ∈ exhaustInit := by
    intro k h1 h2
    exact List.mem_map.mpr ⟨k, List.mem_range'_1.mpr ⟨h1, h2⟩, rfl⟩
  have hsm1 : safe_move exhaustInit "f__x.stl".data = some "f__x.stl".data :=
    safe_move_of_not_mem hdst_notin
  have hsm2 : safe_move ("f__x.stl".data :: exhaustInit) "f__x.stl".data = none := by
    have hc : ("f__x.stl".data :: exhaustInit).contains "f__x.stl".data = true :=
      contains_eq_true.mpr (List.mem_cons_self _ _)
    simp only [safe_move, hc, Bool.not_true, Bool.false_eq_true, if_false]
    exact findFree_none fun k hk1 hk2 =>
      contains_eq_true.mpr (List.mem_cons_of_mem _ (hmem_cand k hk1 hk2))
  exact ⟨by decide, exhaust_runA_mem exhaustInit hsm1 hsm2,
    exhaust_runB_mem exhaustInit hsm1⟩

theorem claim_C2_witness :
    (okPaths (runMain pyUni0 (some ["p".data, "q".data, "r".data])
      ["A.ttf".data, "B.ttf".data] (scenarioEnv 0 1) []).pairs).length = 5 ∧
    ((runMain pyUni0 (some ["p".data, "q".data, "r".data])
      ["A.ttf".data, "B.ttf".data] (scenarioEnv 0 1) []).pairs.filter
        (fun e => e.2.2 == PairRes.err)).length = 1 :=
  (claim_C2_isolation pyUni0 none [] envAllOk []).2.2.2.2.2 0 1 (by decide) (by decide)

/-- Claim C8: every successful pair's artifact is derived from the
desired destination `sanitize(font stem) + "__" + sanitize(phrase) +
".stl"` — it is that name exactly, or (only on collision) that name with
a numeric disambiguator; the two concrete naming examples of the spec
hold. -/
theorem claim_C8_artifact_naming :
    (∀ (U : PyUni) (pf : Option (List (List Char))) (fonts : List (List Char))
        (env : Env) (outInit : List (List Char)) (a b : Nat) (p : List Char),
      (a, b, PairRes.ok p) ∈ (runMain U pf fonts env outInit).pairs →
      ∃ fn ph, fonts[a]? = some fn ∧ (load_phrases U pf)[b]? = some ph ∧
        (p = outName U fn ph ∨
          ∃ k, 1 ≤ k ∧ k ≤ 9999 ∧ p = candName (outName U fn ph) k)) ∧
    outName pyUni0 "MyFont.ttf".data "Hello World!".data
      = "MyFont__Hello_World.stl".data ∧
    sanitize_stem pyUni0 "Hello, World! / 2024".data 80
      = "Hello_World_2024".data := by
  refine ⟨?_, by decide, by decide⟩
  intro U pf fonts env outInit a b p hmem
  by_cases hp : load_phrases U pf = []
  · rw [runMain_aborted hp] at hmem
    simp at hmem
  by_cases hd : env.driverOk
  · rw [runMain_normal hp hd] at hmem
    dsimp only at hmem
    obtain ⟨fn, h1, _, ph, h3, h4⟩ :=
      runFonts_shape U env (load_phrases U pf) fonts 0 outInit _ hmem
    obtain ⟨_, _, hfa⟩ := mem_zip_range' h1
    obtain ⟨_, _, hfb⟩ := mem_zip_range' h3
    rw [Nat.sub_zero] at hfa hfb
    exact ⟨fn, ph, hfa, hfb, h4 p rfl⟩
  · rw [Bool.not_eq_true] at hd
    rw [runMain_crashed hp hd] at hmem
    simp at hmem

theorem claim_C8_witness :
    ∃ fn ph, (["MyFont.ttf".data] : List (List Char))[0]? = some fn ∧
      (load_phrases pyUni0 (some ["Hello World!".data]))[0]? = some ph ∧
      ("MyFont__Hello_World.stl".data = outName pyUni0 fn ph ∨
        ∃ k, 1 ≤ k ∧ k ≤ 9999 ∧
          "MyFont__Hello_World.stl".data = candName (outName pyUni0 fn ph) k) :=
  claim_C8_artifact_naming.1 pyUni0 (some ["Hello World!".data]) ["MyFont.ttf".data]
    envAllOk [] 0 0 "MyFont__Hello_World.stl".data (by decide)
